import Mathlib

/-!
Shallow embedding of the pulse-propagation network simulator
(`src/bin/20.rs` of the repository): module graph, FIFO pulse
propagation, counting mode, watch mode with binary-GCD/LCM cycle
combination, and the line parser, together with proofs about them.

Machine integers are modelled as `Nat` with explicit `% 2^w` at the
points where the Rust code uses a fixed-width accumulator, and the
unbounded `for`/`while` loops of the source are modelled with explicit
fuel, returning `none` when the fuel is exhausted (the corresponding
Rust loop would still be running at that point).
-/

namespace Day20

/-- Pulse: the two-valued signal carried on every edge (`enum Pulse`). -/
inductive Pulse where
  | low
  | high
deriving DecidableEq

/-- ModuleName: `Broadcaster` or a two-character name (`enum ModuleName`). -/
inductive ModuleName where
  | broadcaster
  | other : Char → Char → ModuleName
deriving DecidableEq

/-- ModuleType (`enum ModuleType`); the conjunction carries its recorded
input set.  The Rust `HashSet` is modelled as a duplicate-free list. -/
inductive ModuleType where
  | broadcaster
  | flipFlop
  | conjunction : List ModuleName → ModuleType
deriving DecidableEq

/-- Module (`struct Module`): name, type, and destination set (the Rust
`HashSet<ModuleName>` is modelled as a duplicate-free list whose order
stands for the set's iteration order). -/
structure Module where
  name : ModuleName
  module_type : ModuleType
  destinations : List ModuleName
deriving DecidableEq

/-- Signal (`struct Signal`): an in-flight pulse (no sender field). -/
structure Signal where
  pulse : Pulse
  destination : ModuleName
deriving DecidableEq

/-- Initial signal of a button press: a Low pulse to the broadcaster. -/
def Signal.initial : Signal := ⟨Pulse.low, ModuleName.broadcaster⟩

/-- ModuleSystem (`struct ModuleSystem`): the module map, modelled as a
list keyed by `Module.name` (latest insertion shadows older ones). -/
structure ModuleSystem where
  modules : List Module
deriving DecidableEq

/-- Lookup in an association list keyed by `ModuleName` (first match,
mirroring `HashMap::get` after inserts that shadow older entries). -/
def lookupName {α : Type} : List (ModuleName × α) → ModuleName → Option α
  | [], _ => none
  | (k, v) :: rest, n => if k = n then some v else lookupName rest n

/-- Insert into an association list (`HashMap::insert`): the new binding
shadows any older one. -/
def insertName {α : Type} (l : List (ModuleName × α)) (k : ModuleName) (v : α) :
    List (ModuleName × α) :=
  (k, v) :: l

/-- Remove the first occurrence of a name (`HashSet::remove`). -/
def removeName : List ModuleName → ModuleName → List ModuleName
  | [], _ => []
  | m :: rest, n => if m = n then rest else m :: removeName rest n

/-- Add a name to a duplicate-free list (`HashSet::insert`), keeping the
first-insertion order. -/
def insertUnique (l : List ModuleName) (n : ModuleName) : List ModuleName :=
  if n ∈ l then l else l ++ [n]

/-- Lookup of a module by name (`self.modules.get(&name)`). -/
def getModule : List Module → ModuleName → Option Module
  | [], _ => none
  | m :: rest, n => if m.name = n then some m else getModule rest n

/-- Module-map insert keyed by name (`system.modules.insert(name, module)`). -/
def insertModule : List Module → Module → List Module
  | [], m => [m]
  | m' :: rest, m => if m'.name = m.name then m :: rest else m' :: insertModule rest m

/-- Mutable per-press simulation state: the flip-flop booleans and the
global last-sent map (both `HashMap`s in the source).  The module map is
not part of the state: the Rust simulation borrows it immutably. -/
structure SimState where
  flipflop_state : List (ModuleName × Bool)
  last_sent : List (ModuleName × Pulse)
deriving DecidableEq

/-- Initial simulation state: both maps empty. -/
def state0 : SimState := ⟨[], []⟩

/-- Module::send_signals: record the module's own emitted pulse in the
global last-sent map and enqueue one signal per destination at the back
of the FIFO queue. -/
def sendSignals (m : Module) (pulse : Pulse) (queue : List Signal) (st : SimState) :
    List Signal × SimState :=
  (queue ++ m.destinations.map (fun d => ⟨pulse, d⟩),
   ⟨st.flipflop_state, insertName st.last_sent m.name pulse⟩)

/-- Conjunction test `inputs.iter().all(|i| last_sent.get(i).unwrap_or(&Low) == &High)`. -/
def allInputsHigh (inputs : List ModuleName) (last_sent : List (ModuleName × Pulse)) : Bool :=
  inputs.all (fun i => decide ((lookupName last_sent i).getD Pulse.low = Pulse.high))

/-- ModuleSystem::process_signal: dispatch one dequeued signal.  A
destination missing from the module map is an inert sink. -/
def processSignal (sys : ModuleSystem) (s : Signal) (queue : List Signal) (st : SimState) :
    List Signal × SimState :=
  match getModule sys.modules s.destination with
  | none => (queue, st)
  | some m =>
    match m.module_type with
    | ModuleType.broadcaster => sendSignals m s.pulse queue st
    | ModuleType.flipFlop =>
      match s.pulse with
      | Pulse.high => (queue, st)
      | Pulse.low =>
        if (lookupName st.flipflop_state m.name).getD false then
          sendSignals m Pulse.low queue ⟨insertName st.flipflop_state m.name false, st.last_sent⟩
        else
          sendSignals m Pulse.high queue ⟨insertName st.flipflop_state m.name true, st.last_sent⟩
    | ModuleType.conjunction inputs =>
      if allInputsHigh inputs st.last_sent then
        sendSignals m Pulse.low queue st
      else
        sendSignals m Pulse.high queue st

/-- Drain of the FIFO queue (`while let Some(signal) = signals.pop_front()`),
returning the list of processed signals in processing order and the final
state; `none` when the given fuel is exhausted before the queue empties
(the Rust loop would still be running). -/
def runQueue (sys : ModuleSystem) : Nat → List Signal → SimState →
    Option (List Signal × SimState)
  | _, [], st => some ([], st)
  | 0, _ :: _, _ => none
  | fuel + 1, s :: q, st =>
    match processSignal sys s q st with
    | (q', st') =>
      match runQueue sys fuel q' st' with
      | none => none
      | some (t, st'') => some (s :: t, st'')

/-- Counting drain of `press_button_times`: like `runQueue` but keeping
the two pulse tallies, each incremented with wraparound at modulus `M`
(the Rust accumulators are `u32`, i.e. `M = 2^32`; `M = 0` leaves `%`
inert and gives the unbounded mathematical tally). -/
def drainCount (sys : ModuleSystem) (M : Nat) : Nat → List Signal → SimState →
    Nat → Nat → Option (Nat × Nat × SimState)
  | _, [], st, low, high => some (low, high, st)
  | 0, _ :: _, _, _, _ => none
  | fuel + 1, s :: q, st, low, high =>
    match s.pulse with
    | Pulse.low =>
      match processSignal sys s q st with
      | (q', st') => drainCount sys M fuel q' st' ((low + 1) % M) high
    | Pulse.high =>
      match processSignal sys s q st with
      | (q', st') => drainCount sys M fuel q' st' low ((high + 1) % M)

/-- Press loop of `press_button_times` (`for _ in 0..times`), with the
per-press drain bounded by `fuel`. -/
def pressLoop (sys : ModuleSystem) (M : Nat) (fuel : Nat) : Nat → SimState →
    Nat → Nat → Option (Nat × Nat)
  | 0, _, low, high => some (low, high)
  | times + 1, st, low, high =>
    match drainCount sys M fuel [Signal.initial] st low high with
    | none => none
    | some (low', high', st') => pressLoop sys M fuel times st' low' high'

/-- ModuleSystem::press_button_times: counting mode over exactly `times`
presses.  The Rust tallies are `u32`, hence modulus `2^32`. -/
def press_button_times (sys : ModuleSystem) (times : Nat) (fuel : Nat) :
    Option (Nat × Nat) :=
  pressLoop sys (2 ^ 32) fuel times state0 0 0

/-- Modelled from the spec: the same counting mode with the unsigned
64-bit accumulation the specification prescribes (modulus `2^64`). -/
def press_button_times64 (sys : ModuleSystem) (times : Nat) (fuel : Nat) :
    Option (Nat × Nat) :=
  pressLoop sys (2 ^ 64) fuel times state0 0 0

/-- Reference counting mode with unbounded (true) tallies: modulus `0`
leaves `% 0` inert on `Nat`. -/
def press_button_timesNat (sys : ModuleSystem) (times : Nat) (fuel : Nat) :
    Option (Nat × Nat) :=
  pressLoop sys 0 fuel times state0 0 0

/-- Per-press trace sequence: each press seeds the single initial signal
and fully drains the queue; returns the list of per-press processing
traces and the final state. -/
def pressTraces (sys : ModuleSystem) (fuel : Nat) : Nat → SimState →
    Option (List (List Signal) × SimState)
  | 0, st => some ([], st)
  | n + 1, st =>
    match runQueue sys fuel [Signal.initial] st with
    | none => none
    | some (t, st') =>
      match pressTraces sys fuel n st' with
      | none => none
      | some (ts, st'') => some (t :: ts, st'')

/-- Trailing-zero count with fuel (`u64::trailing_zeros` returns 64 on
zero; fuel 64 covers every value below `2^64`). -/
def tzGo : Nat → Nat → Nat
  | _, 0 => 64
  | 0, _ => 0
  | fuel + 1, x => if x % 2 = 1 then 0 else tzGo fuel (x / 2) + 1

/-- Trailing zeros of a `u64` value. -/
def tz (x : Nat) : Nat := tzGo 64 x

/-- Subtract-and-shift loop of the binary GCD (`while a != b`); the fuel
passed by `gcd` provably suffices for odd operands. -/
def gcdLoop : Nat → Nat → Nat → Nat
  | 0, a, _ => a
  | fuel + 1, a, b =>
    if a = b then a
    else if a > b then gcdLoop fuel ((a - b) >>> tz (a - b)) b
    else gcdLoop fuel a ((b - a) >>> tz (b - a))

/-- Binary (Stein) GCD of the source (`fn gcd`): strip the common power
of two, run the subtract-and-shift loop on the odd parts, shift back. -/
def gcd (a b : Nat) : Nat :=
  if a = 0 ∨ b = 0 then a ||| b
  else
    let shift := tz (a ||| b)
    let a' := a >>> tz a
    let b' := b >>> tz b
    gcdLoop (a' + b') a' b' <<< shift

/-- LCM of the source (`fn lcm`): `a * (b / gcd(a, b))` in `u64`
arithmetic, modelled with wraparound at `2^64`. -/
def lcm64 (a b : Nat) : Nat :=
  if a = 0 ∧ b = 0 then 0 else a * (b / gcd a b) % 2 ^ 64

/-- Outcome of one watch-mode drain: either the early return with the
accumulated LCM, or the fully drained queue with the updated watch data. -/
inductive WatchOut where
  | found : Nat → WatchOut
  | drained : List ModuleName → Nat → SimState → WatchOut
deriving DecidableEq

/-- Watch-mode drain of `find_lcm_of_signals_to_destinations`: before
processing each dequeued signal, a Low signal whose destination is a
not-yet-recorded watched name records the current press index into the
LCM accumulator and, once the watch list empties, returns it at once
(before processing that signal, as in the source). -/
def watchDrain (sys : ModuleSystem) : Nat → List Signal → List ModuleName →
    Nat → Nat → SimState → Option WatchOut
  | _, [], tf, l, _, st => some (WatchOut.drained tf l st)
  | 0, _ :: _, _, _, _, _ => none
  | fuel + 1, s :: q, tf, l, p, st =>
    if s.pulse = Pulse.low ∧ s.destination ∈ tf then
      match removeName tf s.destination, lcm64 l p with
      | tf', l' =>
        if tf' = [] then some (WatchOut.found l')
        else
          match processSignal sys s q st with
          | (q', st') => watchDrain sys fuel q' tf' l' p st'
    else
      match processSignal sys s q st with
      | (q', st') => watchDrain sys fuel q' tf l p st'

/-- Press loop of `find_lcm_of_signals_to_destinations`
(`for presses in 1..`), bounded by press fuel. -/
def findLcmLoop (sys : ModuleSystem) (fuel : Nat) : Nat → Nat →
    List ModuleName → Nat → SimState → Option Nat
  | 0, _, _, _, _ => none
  | pf + 1, p, tf, l, st =>
    match watchDrain sys fuel [Signal.initial] tf l p st with
    | none => none
    | some (WatchOut.found v) => some v
    | some (WatchOut.drained tf' l' st') => findLcmLoop sys fuel pf (p + 1) tf' l' st'

/-- ModuleSystem::find_lcm_of_signals_to_destinations: watch mode from
press 1 with LCM accumulator 1 and fresh state. -/
def find_lcm_of_signals_to_destinations (sys : ModuleSystem) (dests : List ModuleName)
    (pressFuel fuel : Nat) : Option Nat :=
  findLcmLoop sys fuel pressFuel 1 dests 1 state0

/-- Destinations of the Low signals of a trace, in processing order. -/
def lowDests (t : List Signal) : List ModuleName :=
  (t.filter (fun s => decide (s.pulse = Pulse.low))).map (fun s => s.destination)

/-- Reference watch bookkeeping over the Low destinations of one press
trace: remove each first-seen watched name, fold the press index into
the LCM accumulator, and report the accumulator as found the moment the
watch list empties. -/
def recordLows (p : Nat) : List ModuleName → List ModuleName → Nat →
    Option Nat × List ModuleName × Nat
  | [], tf, l => (none, tf, l)
  | d :: ds, tf, l =>
    if d ∈ tf then
      match removeName tf d, lcm64 l p with
      | tf', l' =>
        if tf' = [] then (some l', tf', l')
        else recordLows p ds tf' l'
    else recordLows p ds tf l

/-- Reference cycle finder: per press, fully drain the queue into a
trace, then scan the trace's Low destinations with `recordLows`. -/
def findRefLoop (sys : ModuleSystem) (fuel : Nat) : Nat → Nat →
    List ModuleName → Nat → SimState → Option Nat
  | 0, _, _, _, _ => none
  | pf + 1, p, tf, l, st =>
    match runQueue sys fuel [Signal.initial] st with
    | none => none
    | some (t, st') =>
      match recordLows p (lowDests t) tf l with
      | (some v, _, _) => some v
      | (none, tf', l') => findRefLoop sys fuel pf (p + 1) tf' l' st'

/-- Reference cycle finder, same calling convention as the source. -/
def findRef (sys : ModuleSystem) (dests : List ModuleName) (pressFuel fuel : Nat) :
    Option Nat :=
  findRefLoop sys fuel pressFuel 1 dests 1 state0

/-- Parse-error value (`struct ParseModuleError`). -/
inductive ParseModuleError where
  | parseModuleError
deriving DecidableEq

deriving instance DecidableEq for Except

/-- Split at the first occurrence of a separator (`str::split_once`). -/
def splitOnce (sep : List Char) : List Char → Option (List Char × List Char)
  | [] => none
  | c :: rest =>
    if sep.isPrefixOf (c :: rest) then some ([], (c :: rest).drop sep.length)
    else
      match splitOnce sep rest with
      | none => none
      | some (l, r) => some (c :: l, r)

/-- Split at every occurrence of a separator (`str::split`), with fuel. -/
def splitAllGo (sep : List Char) : Nat → List Char → List (List Char)
  | 0, s => [s]
  | fuel + 1, s =>
    match splitOnce sep s with
    | none => [s]
    | some (l, r) => l :: splitAllGo sep fuel r

/-- Split at every occurrence of a separator (`str::split`). -/
def splitAll (sep s : List Char) : List (List Char) := splitAllGo sep (s.length + 1) s

/-- Strip one trailing carriage return, as `str::lines` does per line. -/
def stripCr (l : List Char) : List Char :=
  match l.reverse with
  | '\r' :: rest => rest.reverse
  | _ => l

/-- Drop the final empty piece produced by a trailing line break, as
`str::lines` does. -/
def dropLastEmpty (ls : List (List Char)) : List (List Char) :=
  match ls.reverse with
  | [] :: rest => rest.reverse
  | _ => ls

/-- Lines of the input (`str::lines`): split on a line feed, drop the
final empty piece, strip one trailing carriage return per line. -/
def linesOf (s : List Char) : List (List Char) :=
  (dropLastEmpty (splitAll ['\n'] s)).map stripCr

/-- ModuleName::from_str: the literal `broadcaster`, or exactly two
characters. -/
def ModuleName.fromStr (s : List Char) : Except ParseModuleError ModuleName :=
  if s = ("broadcaster".toList) then Except.ok ModuleName.broadcaster
  else
    match s with
    | [a, b] => Except.ok (ModuleName.other a b)
    | _ => Except.error ParseModuleError.parseModuleError

/-- Parse a destination list (`destinations_str.split(", ")` inserted one
by one into a `HashSet`). -/
def parseDests (parts : List (List Char)) : Except ParseModuleError (List ModuleName) :=
  parts.foldlM
    (fun acc part =>
      match ModuleName.fromStr part with
      | Except.error e => Except.error e
      | Except.ok d => Except.ok (insertUnique acc d))
    []

/-- Type-prefix dispatch of Module::from_str: the literal
`broadcaster`, a `%`-prefixed flip-flop name, or a `&`-prefixed
conjunction name (whose tracker starts empty). -/
def parseDetails (details : List Char) :
    Except ParseModuleError (ModuleName × ModuleType) :=
  if details = ("broadcaster".toList) then
    Except.ok (ModuleName.broadcaster, ModuleType.broadcaster)
  else if details.take 1 = ['%'] then
    match ModuleName.fromStr (details.drop 1) with
    | Except.error e => Except.error e
    | Except.ok n => Except.ok (n, ModuleType.flipFlop)
  else if details.take 1 = ['&'] then
    match ModuleName.fromStr (details.drop 1) with
    | Except.error e => Except.error e
    | Except.ok n => Except.ok (n, ModuleType.conjunction [])
  else Except.error ParseModuleError.parseModuleError

/-- Module::from_str: split the line at the arrow, read the type prefix
and name, and parse the destination list. -/
def Module.fromStr (line : List Char) : Except ParseModuleError Module :=
  match splitOnce (" -> ".toList) line with
  | none => Except.error ParseModuleError.parseModuleError
  | some (details, destinations_str) =>
    match parseDetails details with
    | Except.error e => Except.error e
    | Except.ok (name, moduleType) =>
      match parseDests (splitAll (", ".toList) destinations_str) with
      | Except.error e => Except.error e
      | Except.ok dests => Except.ok ⟨name, moduleType, dests⟩

/-- Record one incoming edge into a conjunction's input tracker
(`get_mut` followed by the `Conjunction` insert of the second pass);
only the first module carrying the destination name is touched, and
modules of other types are left unchanged. -/
def updateConjTracker : List Module → ModuleName → ModuleName → List Module
  | [], _, _ => []
  | m :: rest, dest, src =>
    if m.name = dest then
      (match m.module_type with
       | ModuleType.conjunction tracker =>
         ⟨m.name, ModuleType.conjunction (insertUnique tracker src), m.destinations⟩
       | _ => m) :: rest
    else m :: updateConjTracker rest dest src

/-- Edge list of the system (`connections` of the second pass): every
`(source name, destination name)` pair, in module order. -/
def connectionsOf (ms : List Module) : List (ModuleName × ModuleName) :=
  ms.flatMap (fun m => m.destinations.map (fun d => (m.name, d)))

/-- Second construction pass: back-populate every conjunction's input
tracker from the edge list. -/
def backPopulate (ms : List Module) (conns : List (ModuleName × ModuleName)) :
    List Module :=
  conns.foldl (fun acc c => updateConjTracker acc c.2 c.1) ms

/-- First construction pass: parse each line in order and insert the
module into the map (a later line with the same name shadows an earlier
one, as `HashMap::insert` does). -/
def parseModules : List (List Char) → List Module → Except ParseModuleError (List Module)
  | [], acc => Except.ok acc
  | line :: rest, acc =>
    match Module.fromStr line with
    | Except.error e => Except.error e
    | Except.ok m => parseModules rest (insertModule acc m)

/-- ModuleSystem::from_str: parse every line into the module map, then
back-populate the conjunction input sets from the collected edges. -/
def ModuleSystem.fromStr (input : String) : Except ParseModuleError ModuleSystem :=
  match parseModules (linesOf input.toList) [] with
  | Except.error e => Except.error e
  | Except.ok ms => Except.ok ⟨backPopulate ms (connectionsOf ms)⟩

/-- First module whose destination set contains the sought name
(`system.modules.values().find(...)` of `part_two`). -/
def findFeeder (target : ModuleName) : List Module → Option Module
  | [] => none
  | m :: rest => if target ∈ m.destinations then some m else findFeeder target rest

/-- part_two: construct the system, locate the module feeding `rx`, and
run watch mode on its conjunction input set; `None` when parsing fails,
no feeder exists, or the feeder found is not a conjunction. -/
def part_two (input : String) (pressFuel fuel : Nat) : Option Nat :=
  match ModuleSystem.fromStr input with
  | Except.error _ => none
  | Except.ok sys =>
    match findFeeder (ModuleName.other 'r' 'x') sys.modules with
    | none => none
    | some m =>
      match m.module_type with
      | ModuleType.conjunction sources =>
        find_lcm_of_signals_to_destinations sys sources pressFuel fuel
      | _ => none

/-- Modelled from the spec (§4.2): an in-flight event carrying its
sender, as the specification's `transition(module, incoming_pulse,
sender)` interface requires.  The source's `Signal` has no sender. -/
structure SpecSignal where
  sender : ModuleName
  pulse : Pulse
  destination : ModuleName
deriving DecidableEq

/-- Modelled from the spec: initial press signal (the button press is
attributed to the entry module, which never feeds a conjunction here). -/
def SpecSignal.initial : SpecSignal :=
  ⟨ModuleName.broadcaster, Pulse.low, ModuleName.broadcaster⟩

/-- Modelled from the spec (§3): per-conjunction `last_received` maps
plus the flip-flop booleans. -/
structure SpecState where
  flipflops : List (ModuleName × Bool)
  memories : List (ModuleName × List (ModuleName × Pulse))
deriving DecidableEq

/-- Modelled from the spec: initial state, every memory defaulting. -/
def specState0 : SpecState := ⟨[], []⟩

/-- Modelled from the spec (§4.2): the per-module transition — the
conjunction updates `last_received[sender] = incoming_pulse` at
processing time and emits Low iff every remembered input value (default
Low) is High. -/
def specProcess (sys : ModuleSystem) (s : SpecSignal) (queue : List SpecSignal)
    (st : SpecState) : List SpecSignal × SpecState :=
  match getModule sys.modules s.destination with
  | none => (queue, st)
  | some m =>
    match m.module_type with
    | ModuleType.broadcaster =>
      (queue ++ m.destinations.map (fun d => ⟨m.name, s.pulse, d⟩), st)
    | ModuleType.flipFlop =>
      match s.pulse with
      | Pulse.high => (queue, st)
      | Pulse.low =>
        if (lookupName st.flipflops m.name).getD false then
          (queue ++ m.destinations.map (fun d => ⟨m.name, Pulse.low, d⟩),
           ⟨insertName st.flipflops m.name false, st.memories⟩)
        else
          (queue ++ m.destinations.map (fun d => ⟨m.name, Pulse.high, d⟩),
           ⟨insertName st.flipflops m.name true, st.memories⟩)
    | ModuleType.conjunction inputs =>
      match insertName ((lookupName st.memories m.name).getD []) s.sender s.pulse with
      | mem =>
        match
          (if allInputsHigh inputs mem then Pulse.low else Pulse.high :
            Pulse) with
        | out =>
          (queue ++ m.destinations.map (fun d => ⟨m.name, out, d⟩),
           ⟨st.flipflops, insertName st.memories m.name mem⟩)

/-- Modelled from the spec: counting drain over sender-carrying signals
with unsigned 64-bit tallies. -/
def specDrainCount (sys : ModuleSystem) : Nat → List SpecSignal → SpecState →
    Nat → Nat → Option (Nat × Nat × SpecState)
  | _, [], st, low, high => some (low, high, st)
  | 0, _ :: _, _, _, _ => none
  | fuel + 1, s :: q, st, low, high =>
    match s.pulse with
    | Pulse.low =>
      match specProcess sys s q st with
      | (q', st') => specDrainCount sys fuel q' st' ((low + 1) % 2 ^ 64) high
    | Pulse.high =>
      match specProcess sys s q st with
      | (q', st') => specDrainCount sys fuel q' st' low ((high + 1) % 2 ^ 64)

/-- Modelled from the spec: counting mode over the spec's transition
semantics. -/
def specPressLoop (sys : ModuleSystem) (fuel : Nat) : Nat → SpecState →
    Nat → Nat → Option (Nat × Nat)
  | 0, _, low, high => some (low, high)
  | times + 1, st, low, high =>
    match specDrainCount sys fuel [SpecSignal.initial] st low high with
    | none => none
    | some (low', high', st') => specPressLoop sys fuel times st' low' high'

/-- Modelled from the spec: `press_button_times` under the spec's
per-receive conjunction semantics. -/
def spec_press_button_times (sys : ModuleSystem) (times : Nat) (fuel : Nat) :
    Option (Nat × Nat) :=
  specPressLoop sys fuel times specState0 0 0

/-- Modelled from the spec: outcome of one spec watch-mode drain. -/
inductive SpecWatchOut where
  | found : Nat → SpecWatchOut
  | drained : List ModuleName → Nat → SpecState → SpecWatchOut
deriving DecidableEq

/-- Modelled from the spec (§4.3): watch-mode drain observing every Low
pulse sent to the conjunction `target`, recording the press index when a
not-yet-recorded member of the watch list is the sender. -/
def specWatchDrain (sys : ModuleSystem) (target : ModuleName) : Nat →
    List SpecSignal → List ModuleName → Nat → Nat → SpecState → Option SpecWatchOut
  | _, [], tf, l, _, st => some (SpecWatchOut.drained tf l st)
  | 0, _ :: _, _, _, _, _ => none
  | fuel + 1, s :: q, tf, l, p, st =>
    if s.pulse = Pulse.low ∧ s.destination = target ∧ s.sender ∈ tf then
      match removeName tf s.sender, lcm64 l p with
      | tf', l' =>
        if tf' = [] then some (SpecWatchOut.found l')
        else
          match specProcess sys s q st with
          | (q', st') => specWatchDrain sys target fuel q' tf' l' p st'
    else
      match specProcess sys s q st with
      | (q', st') => specWatchDrain sys target fuel q' tf l p st'

/-- Modelled from the spec: press loop of the spec cycle finder. -/
def specFindLoop (sys : ModuleSystem) (target : ModuleName) (fuel : Nat) :
    Nat → Nat → List ModuleName → Nat → SpecState → Option Nat
  | 0, _, _, _, _ => none
  | pf + 1, p, tf, l, st =>
    match specWatchDrain sys target fuel [SpecSignal.initial] tf l p st with
    | none => none
    | some (SpecWatchOut.found v) => some v
    | some (SpecWatchOut.drained tf' l' st') =>
      specFindLoop sys target fuel pf (p + 1) tf' l' st'

/-- Modelled from the spec (§4.3): the cycle finder as specified —
record, for each member of the watch set, the first press index at
which that member is the sender of a Low pulse sent to the conjunction
`target`, stop once all members are recorded, and return the LCM fold
of the recorded press indices. -/
def spec_find_lcm (sys : ModuleSystem) (target : ModuleName)
    (dests : List ModuleName) (pressFuel fuel : Nat) : Option Nat :=
  specFindLoop sys target fuel pressFuel 1 dests 1 specState0

/-- Shorthand for a two-character module name. -/
def mn (a b : Char) : ModuleName := ModuleName.other a b

/-- System with no modules at all: every press sends one Low pulse to
the (absent, hence sink) broadcaster and nothing else happens. -/
def emptySystem : ModuleSystem := ⟨[]⟩

/-- Small watch-mode system: `broadcaster -> mm`, `%mm -> cc`,
`&cc -> rx`.  The flip-flop `mm` RECEIVES a Low pulse on every press,
but first SENDS a Low pulse to `cc` only on press 2. -/
def sysTwo : ModuleSystem :=
  ⟨[⟨ModuleName.broadcaster, ModuleType.broadcaster, [mn 'm' 'm']⟩,
    ⟨mn 'm' 'm', ModuleType.flipFlop, [mn 'c' 'c']⟩,
    ⟨mn 'c' 'c', ModuleType.conjunction [mn 'm' 'm'], [mn 'r' 'x']⟩]⟩

/-- System separating the source's send-time conjunction memory from the
spec's receive-time memory: `broadcaster -> aa, bb`, `%aa -> ss, xx`,
`%bb -> ss`, `&xx -> ss`, `%dd -> xx`, `&ss -> cc`.  During press 1 the
conjunction `ss` dequeues a High pulse after `xx` has already emitted —
the source's `ss` sees `xx`'s in-flight High, the spec's `ss` does not. -/
def sysStale : ModuleSystem :=
  ⟨[⟨ModuleName.broadcaster, ModuleType.broadcaster, [mn 'a' 'a', mn 'b' 'b']⟩,
    ⟨mn 'a' 'a', ModuleType.flipFlop, [mn 's' 's', mn 'x' 'x']⟩,
    ⟨mn 'b' 'b', ModuleType.flipFlop, [mn 's' 's']⟩,
    ⟨mn 'x' 'x', ModuleType.conjunction [mn 'a' 'a', mn 'd' 'd'], [mn 's' 's']⟩,
    ⟨mn 'd' 'd', ModuleType.flipFlop, [mn 'x' 'x']⟩,
    ⟨mn 's' 's', ModuleType.conjunction [mn 'a' 'a', mn 'b' 'b', mn 'x' 'x'], [mn 'c' 'c']⟩]⟩

/-- Success test for `Except` (Rust's `Result::is_ok`). -/
def isOkE {ε α : Type} : Except ε α → Bool
  | Except.ok _ => true
  | Except.error _ => false

/-- Tally fold over a processing trace: the two counters of
`press_button_times`, incremented modulo `M` per dequeued signal. -/
def countsFold (M : Nat) : Nat → Nat → List Signal → Nat × Nat
  | a, b, [] => (a, b)
  | a, b, s :: t =>
    match s.pulse with
    | Pulse.low => countsFold M ((a + 1) % M) b t
    | Pulse.high => countsFold M a ((b + 1) % M) t

/-- Number of Low signals in a trace. -/
def countLow (t : List Signal) : Nat :=
  (t.filter (fun s => decide (s.pulse = Pulse.low))).length

/-- Number of High signals in a trace. -/
def countHigh (t : List Signal) : Nat :=
  (t.filter (fun s => decide (s.pulse = Pulse.high))).length

/-- Sources of the edges of a connection list that point at `n`, in
list order. -/
def srcsFor (n : ModuleName) (conns : List (ModuleName × ModuleName)) : List ModuleName :=
  (conns.filter (fun c => decide (c.2 = n))).map (fun c => c.1)

/-- System `broadcaster -> aa`, `%aa -> rx`: the module feeding `rx` is
a flip-flop, not a conjunction. -/
def sysFeederFlip : ModuleSystem :=
  ⟨[⟨ModuleName.broadcaster, ModuleType.broadcaster, [mn 'a' 'a']⟩,
    ⟨mn 'a' 'a', ModuleType.flipFlop, [mn 'r' 'x']⟩]⟩

/-!  ## Theorems  -/

/-- Looking up a freshly inserted binding yields the inserted value. -/
theorem lookupName_insert_self {α : Type} (l : List (ModuleName × α)) (n : ModuleName)
    (v : α) : lookupName (insertName l n v) n = some v := by
  simp [insertName, lookupName]

/-- Claim C4: a FlipFlop ignores High pulses entirely (no state change,
nothing emitted); a Low pulse flips the boolean (initially false) and
emits High if the flip-flop is now on, Low if now off; and two
consecutive Low pulses starting from off leave it off again, emitting
High then Low in that order. -/
theorem claim_C4 (sys : ModuleSystem) (n : ModuleName) (ds : List ModuleName)
    (q : List Signal) (st : SimState)
    (hget : getModule sys.modules n = some ⟨n, ModuleType.flipFlop, ds⟩) :
    processSignal sys ⟨Pulse.high, n⟩ q st = (q, st) ∧
    processSignal sys ⟨Pulse.low, n⟩ q st =
      (q ++ ds.map (fun d =>
         ⟨if (lookupName st.flipflop_state n).getD false then Pulse.low else Pulse.high, d⟩),
       ⟨insertName st.flipflop_state n (!(lookupName st.flipflop_state n).getD false),
        insertName st.last_sent n
          (if (lookupName st.flipflop_state n).getD false then Pulse.low else Pulse.high)⟩) ∧
    ((lookupName st.flipflop_state n).getD false = false →
      ∀ q' : List Signal,
      processSignal sys ⟨Pulse.low, n⟩ q st =
        (q ++ ds.map (fun d => ⟨Pulse.high, d⟩),
         ⟨insertName st.flipflop_state n true, insertName st.last_sent n Pulse.high⟩) ∧
      lookupName (insertName st.flipflop_state n true) n = some true ∧
      processSignal sys ⟨Pulse.low, n⟩ q'
          ⟨insertName st.flipflop_state n true, insertName st.last_sent n Pulse.high⟩ =
        (q' ++ ds.map (fun d => ⟨Pulse.low, d⟩),
         ⟨insertName (insertName st.flipflop_state n true) n false,
          insertName (insertName st.last_sent n Pulse.high) n Pulse.low⟩) ∧
      lookupName (insertName (insertName st.flipflop_state n true) n false) n = some false) := by
  refine ⟨?_, ?_, ?_⟩
  · simp [processSignal, hget]
  · by_cases hff : (lookupName st.flipflop_state n).getD false
    · simp [processSignal, hget, hff, sendSignals]
    · simp at hff
      simp [processSignal, hget, hff, sendSignals]
  · intro h0 q'
    refine ⟨by simp [processSignal, hget, h0, sendSignals], lookupName_insert_self _ _ _,
      ?_, lookupName_insert_self _ _ _⟩
    simp [processSignal, hget, sendSignals, lookupName_insert_self]

/-- Claim C4, witness: the flip-flop equations instantiated on the
concrete system `sysTwo` at module `mm`. -/
theorem claim_C4_witness :
    getModule sysTwo.modules (mn 'm' 'm') =
      some ⟨mn 'm' 'm', ModuleType.flipFlop, [mn 'c' 'c']⟩ ∧
    processSignal sysTwo ⟨Pulse.high, mn 'm' 'm'⟩ [] state0 = ([], state0) :=
  ⟨by decide, (claim_C4 sysTwo (mn 'm' 'm') [mn 'c' 'c'] [] state0 (by decide)).1⟩

/-- Claim C3, counterexample: on `sysStale` the source and the
specification's per-receive conjunction semantics disagree on press 1 —
the source lets the conjunction `ss` read `xx`'s in-flight High through
the global send-time `last_sent` map and counts `(5, 5)`, while a
simulator that updates the remembered value for the sender at
processing time (as the claim states) counts `(4, 6)`. -/
theorem claim_C3_counterexample :
    press_button_times sysStale 1 30 = some (5, 5) ∧
    spec_press_button_times sysStale 1 30 = some (4, 6) ∧
    (some ((5 : Nat), (5 : Nat)) ≠ some ((4 : Nat), (6 : Nat))) := by
  refine ⟨by decide, by decide, by decide⟩

/-- Claim C3, amended: processing a pulse at a conjunction updates no
per-sender memory (signals carry no sender; each module records its own
emission in the global last-sent map at send time); the conjunction
emits Low exactly when every recorded input value is High, an input
that has never sent counting as Low, so with at least one never-seen
input it emits High. -/
theorem claim_C3_amended (sys : ModuleSystem) (n : ModuleName)
    (inputs ds : List ModuleName) (q : List Signal) (st : SimState) (p : Pulse)
    (hget : getModule sys.modules n = some ⟨n, ModuleType.conjunction inputs, ds⟩) :
    processSignal sys ⟨p, n⟩ q st =
      (q ++ ds.map (fun d =>
         ⟨if allInputsHigh inputs st.last_sent then Pulse.low else Pulse.high, d⟩),
       ⟨st.flipflop_state,
        insertName st.last_sent n
          (if allInputsHigh inputs st.last_sent then Pulse.low else Pulse.high)⟩) ∧
    (allInputsHigh inputs st.last_sent = true ↔
      ∀ i ∈ inputs, (lookupName st.last_sent i).getD Pulse.low = Pulse.high) ∧
    ((∃ i ∈ inputs, lookupName st.last_sent i = none) →
      (if allInputsHigh inputs st.last_sent then Pulse.low else Pulse.high) = Pulse.high) := by
  have hiff : allInputsHigh inputs st.last_sent = true ↔
      ∀ i ∈ inputs, (lookupName st.last_sent i).getD Pulse.low = Pulse.high := by
    simp [allInputsHigh, List.all_eq_true]
  refine ⟨?_, hiff, ?_⟩
  · by_cases hall : allInputsHigh inputs st.last_sent
    · simp [processSignal, hget, hall, sendSignals]
    · simp only [Bool.not_eq_true] at hall
      simp [processSignal, hget, hall, sendSignals]
  · rintro ⟨i, hi, hnone⟩
    cases hall : allInputsHigh inputs st.last_sent with
    | true =>
      have := hiff.mp hall i hi
      rw [hnone] at this
      cases this
    | false => simp

/-- Claim C3 amended, witness: the conjunction equation instantiated on
`sysTwo` at the conjunction `cc` with empty last-sent map (its input
`mm` unseen, so it emits High). -/
theorem claim_C3_amended_witness :
    getModule sysTwo.modules (mn 'c' 'c') =
      some ⟨mn 'c' 'c', ModuleType.conjunction [mn 'm' 'm'], [mn 'r' 'x']⟩ ∧
    processSignal sysTwo ⟨Pulse.high, mn 'c' 'c'⟩ [] state0 =
      ([⟨Pulse.high, mn 'r' 'x'⟩],
       ⟨[], [(mn 'c' 'c', Pulse.high)]⟩) := by
  refine ⟨by decide, ?_⟩
  have h := (claim_C3_amended sysTwo (mn 'c' 'c') [mn 'm' 'm'] [mn 'r' 'x'] [] state0
    Pulse.high (by decide)).1
  simpa using h

/-- Claim C8: construction succeeds precisely when every line parses —
a destination name with no declared module is never a structural error —
and during simulation a signal to an absent name changes nothing: it is
dequeued (hence tallied, appearing in the processing trace) and produces
no further pulses. -/
theorem claim_C8 :
    (∀ input : String, isOkE (ModuleSystem.fromStr input) =
      (linesOf input.toList).all (fun l => isOkE (Module.fromStr l))) ∧
    (∀ (sys : ModuleSystem) (s : Signal) (q : List Signal) (st : SimState),
      getModule sys.modules s.destination = none → processSignal sys s q st = (q, st)) ∧
    (∀ (sys : ModuleSystem) (s : Signal) (st : SimState) (f : Nat),
      getModule sys.modules s.destination = none →
      runQueue sys (f + 1) [s] st = some ([s], st)) := by
  have hsink : ∀ (sys : ModuleSystem) (s : Signal) (q : List Signal) (st : SimState),
      getModule sys.modules s.destination = none → processSignal sys s q st = (q, st) := by
    intro sys s q st h
    simp [processSignal, h]
  have hparse : ∀ (ls : List (List Char)) (acc : List Module),
      isOkE (parseModules ls acc) = ls.all (fun l => isOkE (Module.fromStr l)) := by
    intro ls
    induction ls with
    | nil => intro acc; simp [parseModules, isOkE]
    | cons line rest ih =>
      intro acc
      cases hline : Module.fromStr line with
      | error e => simp [parseModules, hline, isOkE]
      | ok m =>
        simp only [parseModules, hline, List.all_cons]
        rw [ih (insertModule acc m)]
        rw [show isOkE (Except.ok m : Except ParseModuleError Module) = true from rfl, Bool.true_and]
  refine ⟨?_, hsink, ?_⟩
  · intro input
    unfold ModuleSystem.fromStr
    cases hp : parseModules (linesOf input.toList) [] with
    | error e =>
      have := hparse (linesOf input.toList) []
      rw [hp] at this
      simp only [isOkE] at this ⊢
      exact this
    | ok ms =>
      have := hparse (linesOf input.toList) []
      rw [hp] at this
      simp only [isOkE] at this ⊢
      exact this
  · intro sys s st f h
    simp [runQueue, hsink sys s [] st h]

/-- Claim C8, witness: the input `broadcaster -> aa` followed by
`%aa -> zz` references the undeclared name `zz`, yet construction
succeeds, and a signal sent to the absent `zz` is processed as an inert
sink. -/
theorem claim_C8_witness :
    isOkE (ModuleSystem.fromStr ("broadcaster -> aa\n%aa -> zz")) =
      (linesOf ("broadcaster -> aa\n%aa -> zz").toList).all
        (fun l => isOkE (Module.fromStr l)) ∧
    getModule sysTwo.modules (mn 'z' 'z') = none ∧
    runQueue sysTwo 1 [⟨Pulse.low, mn 'z' 'z'⟩] state0 =
      some ([⟨Pulse.low, mn 'z' 'z'⟩], state0) :=
  ⟨claim_C8.1 ("broadcaster -> aa\n%aa -> zz"), by decide,
   claim_C8.2.2 sysTwo ⟨Pulse.low, mn 'z' 'z'⟩ state0 0 (by decide)⟩

/-- Claim C9: when the module feeding `rx` does not exist, or the feeder
found is not a Conjunction, `part_two` returns `none` rather than a
number. -/
theorem claim_C9 (input : String) (sys : ModuleSystem) (pf df : Nat)
    (hparse : ModuleSystem.fromStr input = Except.ok sys)
    (hfeed : findFeeder (ModuleName.other 'r' 'x') sys.modules = none ∨
      ∃ m, findFeeder (ModuleName.other 'r' 'x') sys.modules = some m ∧
        ∀ inputs, m.module_type ≠ ModuleType.conjunction inputs) :
    part_two input pf df = none := by
  rcases hfeed with h | ⟨m, hm, hnc⟩
  · simp [part_two, hparse, h]
  · cases htype : m.module_type with
    | conjunction inputs => exact absurd htype (hnc inputs)
    | broadcaster => simp [part_two, hparse, hm, htype]
    | flipFlop => simp [part_two, hparse, hm, htype]

/-- Claim C9, witness: on `broadcaster -> aa`, `%aa -> rx` the feeder of
`rx` is the flip-flop `aa`, and `part_two` returns `none`. -/
theorem claim_C9_witness :
    ModuleSystem.fromStr ("broadcaster -> aa\n%aa -> rx") = Except.ok sysFeederFlip ∧
    part_two ("broadcaster -> aa\n%aa -> rx") 5 20 = none :=
  ⟨by decide,
   claim_C9 ("broadcaster -> aa\n%aa -> rx") sysFeederFlip 5 20 (by decide)
     (Or.inr ⟨⟨mn 'a' 'a', ModuleType.flipFlop, [mn 'r' 'x']⟩, by decide,
       fun inputs h => by cases h⟩)⟩

/-- Unfolding of the trailing-zero counter at positive fuel on a
nonzero argument. -/
theorem tzGo_succ (f x : Nat) (h : x ≠ 0) :
    tzGo (f + 1) x = if x % 2 = 1 then 0 else tzGo f (x / 2) + 1 := by
  match x, h with
  | y + 1, _ => simp [tzGo]

/-- The trailing-zero counter yields a power of two dividing its
argument with an odd quotient, whenever the fuel bounds the argument. -/
theorem tzGo_spec : ∀ fuel x : Nat, 0 < x → x < 2 ^ fuel →
    2 ^ tzGo fuel x ∣ x ∧ x / 2 ^ tzGo fuel x % 2 = 1 := by
  intro fuel
  induction fuel with
  | zero => intro x hx hlt; simp at hlt; omega
  | succ f ih =>
    intro x hx hlt
    rw [tzGo_succ f x (by omega)]
    by_cases hpar : x % 2 = 1
    · rw [if_pos hpar]
      simpa using hpar
    · rw [if_neg hpar]
      have hx2 : 0 < x / 2 := by omega
      have hlt2 : x / 2 < 2 ^ f := by
        have h2 : (2 : Nat) ^ (f + 1) = 2 ^ f * 2 := by rw [pow_succ]
        omega
      obtain ⟨hdvd, hodd⟩ := ih (x / 2) hx2 hlt2
      have hxe : 2 * (x / 2) = x := by omega
      constructor
      · rw [pow_succ']
        have h1 : 2 * 2 ^ tzGo f (x / 2) ∣ 2 * (x / 2) := Nat.mul_dvd_mul_left 2 hdvd
        rwa [hxe] at h1
      · rw [pow_succ', ← Nat.div_div_eq_div_mul]
        exact hodd

/-- Parity of a bitwise or. -/
theorem lor_mod_two (a b : Nat) : (a ||| b) % 2 = 1 ↔ a % 2 = 1 ∨ b % 2 = 1 := by
  have h := Nat.testBit_lor a b 0
  simp only [Nat.testBit_zero] at h
  constructor
  · intro hx
    have hor : (decide (a % 2 = 1) || decide (b % 2 = 1)) = true := by
      rw [← h]
      simp [hx]
    rcases Bool.or_eq_true_iff.mp hor with hh | hh
    · exact Or.inl (of_decide_eq_true hh)
    · exact Or.inr (of_decide_eq_true hh)
  · intro hx
    have hor : (decide (a % 2 = 1) || decide (b % 2 = 1)) = true := by
      rcases hx with hh | hh <;> simp [hh]
    exact of_decide_eq_true (h.trans hor)

/-- Halving distributes over a bitwise or. -/
theorem lor_div_two (a b : Nat) : (a ||| b) / 2 = a / 2 ||| b / 2 := by
  apply Nat.eq_of_testBit_eq
  intro i
  calc ((a ||| b) / 2).testBit i
      = (a ||| b).testBit (i + 1) := (Nat.testBit_succ _ _).symm
    _ = (a.testBit (i + 1) || b.testBit (i + 1)) := Nat.testBit_lor _ _ _
    _ = ((a / 2).testBit i || (b / 2).testBit i) := by
        rw [Nat.testBit_succ, Nat.testBit_succ]
    _ = (a / 2 ||| b / 2).testBit i := (Nat.testBit_lor _ _ _).symm

/-- A bitwise or of a nonzero number is nonzero. -/
theorem lor_ne_zero_left (a b : Nat) (h : a ≠ 0) : a ||| b ≠ 0 := by
  intro h0
  apply h
  apply Nat.eq_of_testBit_eq
  intro i
  have hbit := congrArg (fun x => Nat.testBit x i) h0
  simp only [Nat.testBit_lor, Nat.zero_testBit] at hbit ⊢
  exact (Bool.or_eq_false_iff.mp hbit).1

/-- Trailing zeros of a bitwise or: the minimum of the two counts,
whenever the fuel bounds both arguments. -/
theorem tzGo_lor : ∀ fuel a b : Nat, 0 < a → a < 2 ^ fuel → 0 < b → b < 2 ^ fuel →
    tzGo fuel (a ||| b) = min (tzGo fuel a) (tzGo fuel b) := by
  intro fuel
  induction fuel with
  | zero => intro a b ha halt _ _; simp at halt; omega
  | succ f ih =>
    intro a b ha halt hb hblt
    rw [tzGo_succ f a (by omega), tzGo_succ f b (by omega),
      tzGo_succ f (a ||| b) (lor_ne_zero_left a b (by omega))]
    by_cases hpa : a % 2 = 1 <;> by_cases hpb : b % 2 = 1
    · rw [if_pos hpa, if_pos hpb, if_pos ((lor_mod_two a b).mpr (Or.inl hpa))]
      simp
    · rw [if_pos hpa, if_neg hpb, if_pos ((lor_mod_two a b).mpr (Or.inl hpa))]
      simp
    · rw [if_neg hpa, if_pos hpb, if_pos ((lor_mod_two a b).mpr (Or.inr hpb))]
      simp
    · have hpor : ¬ (a ||| b) % 2 = 1 := by
        intro hc
        rcases (lor_mod_two a b).mp hc with h | h
        · exact hpa h
        · exact hpb h
      rw [if_neg hpa, if_neg hpb, if_neg hpor, lor_div_two]
      have h2 : (2 : Nat) ^ (f + 1) = 2 ^ f * 2 := by rw [pow_succ]
      rw [ih (a / 2) (b / 2) (by omega) (by omega) (by omega) (by omega)]
      exact (Nat.succ_min_succ _ _).symm

/-- Trailing zeros of a positive even number are at least one. -/
theorem tz_pos_of_even (x : Nat) (h0 : 0 < x) (he : x % 2 = 0) : 1 ≤ tz x := by
  rw [tz, show (64 : Nat) = 63 + 1 from rfl, tzGo_succ 63 x (by omega), if_neg (by omega)]
  omega

/-- The subtract-and-shift loop computes the mathematical GCD of odd
`u64` operands when given fuel at least their sum. -/
theorem gcdLoop_eq : ∀ fuel a b : Nat, a % 2 = 1 → b % 2 = 1 →
    a < 2 ^ 64 → b < 2 ^ 64 → a + b ≤ fuel → gcdLoop fuel a b = Nat.gcd a b := by
  intro fuel
  induction fuel with
  | zero => intro a b ha hb _ _ hf; omega
  | succ f ih =>
    intro a b ha hb halt hblt hf
    rw [gcdLoop]
    by_cases heq : a = b
    · rw [if_pos heq, heq, Nat.gcd_self]
    · rw [if_neg heq]
      by_cases hgt : a > b
      · rw [if_pos hgt]
        have hab_pos : 0 < a - b := by omega
        have hab_lt : a - b < 2 ^ 64 := by omega
        obtain ⟨hdvd0, hodd0⟩ := tzGo_spec 64 (a - b) hab_pos hab_lt
        have hdvd : 2 ^ tz (a - b) ∣ a - b := hdvd0
        have hodd : (a - b) / 2 ^ tz (a - b) % 2 = 1 := hodd0
        have htpos : 1 ≤ tz (a - b) := tz_pos_of_even (a - b) hab_pos (by omega)
        have hcle : (a - b) / 2 ^ tz (a - b) ≤ (a - b) / 2 := by
          apply Nat.div_le_div_left _ (by omega)
          calc (2 : Nat) = 2 ^ 1 := (pow_one 2).symm
            _ ≤ 2 ^ tz (a - b) := Nat.pow_le_pow_right (by omega) htpos
        have hclt : (a - b) / 2 < a - b := Nat.div_lt_self hab_pos (by omega)
        rw [Nat.shiftRight_eq_div_pow]
        rw [ih ((a - b) / 2 ^ tz (a - b)) b hodd hb
          (by have := Nat.div_le_self (a - b) (2 ^ tz (a - b)); omega) hblt (by omega)]
        have hcop : Nat.Coprime (2 ^ tz (a - b)) b :=
          Nat.Coprime.pow_left _ (Nat.coprime_two_left.mpr (Nat.odd_iff.mpr hb))
        calc Nat.gcd ((a - b) / 2 ^ tz (a - b)) b
            = Nat.gcd (2 ^ tz (a - b) * ((a - b) / 2 ^ tz (a - b))) b :=
              (hcop.gcd_mul_left_cancel _).symm
          _ = Nat.gcd (a - b) b := by rw [Nat.mul_div_cancel' hdvd]
          _ = Nat.gcd a b := Nat.gcd_sub_self_left (by omega)
      · rw [if_neg hgt]
        have hlt : b > a := by omega
        have hab_pos : 0 < b - a := by omega
        have hab_lt : b - a < 2 ^ 64 := by omega
        obtain ⟨hdvd0, hodd0⟩ := tzGo_spec 64 (b - a) hab_pos hab_lt
        have hdvd : 2 ^ tz (b - a) ∣ b - a := hdvd0
        have hodd : (b - a) / 2 ^ tz (b - a) % 2 = 1 := hodd0
        have htpos : 1 ≤ tz (b - a) := tz_pos_of_even (b - a) hab_pos (by omega)
        have hcle : (b - a) / 2 ^ tz (b - a) ≤ (b - a) / 2 := by
          apply Nat.div_le_div_left _ (by omega)
          calc (2 : Nat) = 2 ^ 1 := (pow_one 2).symm
            _ ≤ 2 ^ tz (b - a) := Nat.pow_le_pow_right (by omega) htpos
        have hclt : (b - a) / 2 < b - a := Nat.div_lt_self hab_pos (by omega)
        rw [Nat.shiftRight_eq_div_pow]
        rw [ih a ((b - a) / 2 ^ tz (b - a)) ha hodd halt
          (by have := Nat.div_le_self (b - a) (2 ^ tz (b - a)); omega) (by omega)]
        have hcop : Nat.Coprime (2 ^ tz (b - a)) a :=
          Nat.Coprime.pow_left _ (Nat.coprime_two_left.mpr (Nat.odd_iff.mpr ha))
        calc Nat.gcd a ((b - a) / 2 ^ tz (b - a))
            = Nat.gcd a (2 ^ tz (b - a) * ((b - a) / 2 ^ tz (b - a))) :=
              (hcop.gcd_mul_left_cancel_right _).symm
          _ = Nat.gcd a (b - a) := by rw [Nat.mul_div_cancel' hdvd]
          _ = Nat.gcd a b := Nat.gcd_sub_self_right (by omega)

/-- GCD of two numbers in two-power-times-odd form, lower exponent on
the left. -/
theorem gcd_two_pow_factor (i j a' b' : Nat) (ha : a' % 2 = 1) (hij : i ≤ j) :
    Nat.gcd (2 ^ i * a') (2 ^ j * b') = 2 ^ i * Nat.gcd a' b' := by
  have hsplit : (2 : Nat) ^ j = 2 ^ i * 2 ^ (j - i) := by
    rw [← pow_add]
    congr 1
    omega
  rw [hsplit, Nat.mul_assoc, Nat.gcd_mul_left]
  congr 1
  exact Nat.Coprime.gcd_mul_left_cancel_right b'
    (Nat.Coprime.pow_left _ (Nat.coprime_two_left.mpr (Nat.odd_iff.mpr ha)))

/-- GCD of two numbers in two-power-times-odd form. -/
theorem gcd_factor_min (i j a' b' : Nat) (ha : a' % 2 = 1) (hb : b' % 2 = 1) :
    Nat.gcd (2 ^ i * a') (2 ^ j * b') = 2 ^ min i j * Nat.gcd a' b' := by
  rcases Nat.le_total i j with hij | hij
  · rw [Nat.min_eq_left hij, gcd_two_pow_factor i j a' b' ha hij]
  · rw [Nat.min_eq_right hij, Nat.gcd_comm, gcd_two_pow_factor j i b' a' hb hij,
      Nat.gcd_comm b' a']

/-- The source's binary GCD computes the mathematical GCD on every pair
of `u64` values. -/
theorem gcd_eq (a b : Nat) (ha : a < 2 ^ 64) (hb : b < 2 ^ 64) : gcd a b = Nat.gcd a b := by
  by_cases h0 : a = 0 ∨ b = 0
  · rw [gcd, if_pos h0]
    rcases h0 with h | h
    · subst h
      simp
    · subst h
      simp
  · rw [gcd, if_neg h0]
    push_neg at h0
    obtain ⟨ha0, hb0⟩ := h0
    have hpa : 0 < a := Nat.pos_of_ne_zero ha0
    have hpb : 0 < b := Nat.pos_of_ne_zero hb0
    obtain ⟨hda0, hoa0⟩ := tzGo_spec 64 a hpa ha
    obtain ⟨hdb0, hob0⟩ := tzGo_spec 64 b hpb hb
    have hda : 2 ^ tz a ∣ a := hda0
    have hoa : a / 2 ^ tz a % 2 = 1 := hoa0
    have hdb : 2 ^ tz b ∣ b := hdb0
    have hob : b / 2 ^ tz b % 2 = 1 := hob0
    show gcdLoop (a >>> tz a + b >>> tz b) (a >>> tz a) (b >>> tz b) <<< tz (a ||| b) =
      Nat.gcd a b
    rw [Nat.shiftRight_eq_div_pow, Nat.shiftRight_eq_div_pow]
    rw [gcdLoop_eq _ _ _ hoa hob
      (Nat.lt_of_le_of_lt (Nat.div_le_self a _) ha)
      (Nat.lt_of_le_of_lt (Nat.div_le_self b _) hb) (Nat.le_refl _)]
    rw [Nat.shiftLeft_eq]
    have hmin : tz (a ||| b) = min (tz a) (tz b) := tzGo_lor 64 a b hpa ha hpb hb
    rw [hmin]
    have hfa : 2 ^ tz a * (a / 2 ^ tz a) = a := Nat.mul_div_cancel' hda
    have hfb : 2 ^ tz b * (b / 2 ^ tz b) = b := Nat.mul_div_cancel' hdb
    have hmain : Nat.gcd a b =
        2 ^ min (tz a) (tz b) * Nat.gcd (a / 2 ^ tz a) (b / 2 ^ tz b) := by
      conv_lhs => rw [← hfa, ← hfb]
      exact gcd_factor_min _ _ _ _ hoa hob
    rw [hmain, Nat.mul_comm]

/-- Claim C7, counterexample: on the `u64` inputs `2^63` and `3` the
source's `lcm` wraps — `2^63 * 3` exceeds the `u64` range — and returns
`2^63` instead of the least common multiple `3 * 2^63`. -/
theorem claim_C7_counterexample :
    lcm64 (2 ^ 63) 3 = 2 ^ 63 ∧ Nat.lcm (2 ^ 63) 3 = 3 * 2 ^ 63 ∧
    (2 ^ 63 : Nat) ≠ 3 * 2 ^ 63 :=
  ⟨by decide, by decide, by decide⟩

/-- Claim C7, amended: the binary GCD returns the greatest common
divisor for all `u64` inputs; `lcm(a, b) = a * (b / gcd(a, b))` returns
the least common multiple whenever that value fits in a `u64` (the
multiplication wraps modulo `2^64` otherwise); and the LCM fold over the
recorded periods 3 and 4 yields 12. -/
theorem claim_C7_amended :
    (∀ a b : Nat, a < 2 ^ 64 → b < 2 ^ 64 → gcd a b = Nat.gcd a b) ∧
    (∀ a b : Nat, a < 2 ^ 64 → b < 2 ^ 64 → Nat.lcm a b < 2 ^ 64 →
      lcm64 a b = Nat.lcm a b) ∧
    List.foldl lcm64 1 [3, 4] = 12 := by
  refine ⟨gcd_eq, ?_, by decide⟩
  intro a b ha hb hl
  rw [lcm64]
  by_cases h00 : a = 0 ∧ b = 0
  · rw [if_pos h00, h00.1, h00.2]
    simp
  · rw [if_neg h00, gcd_eq a b ha hb,
      ← Nat.mul_div_assoc a (Nat.gcd_dvd_right a b)]
    show Nat.lcm a b % 2 ^ 64 = Nat.lcm a b
    exact Nat.mod_eq_of_lt hl

/-- Claim C7 amended, witness: the GCD equation at `(48, 36)` and the
LCM equation at `(4, 6)`. -/
theorem claim_C7_amended_witness :
    ((48 : Nat) < 2 ^ 64 ∧ (36 : Nat) < 2 ^ 64 ∧ gcd 48 36 = Nat.gcd 48 36) ∧
    (Nat.lcm 4 6 < 2 ^ 64 ∧ lcm64 4 6 = Nat.lcm 4 6) :=
  ⟨⟨by decide, by decide, claim_C7_amended.1 48 36 (by decide) (by decide)⟩,
   ⟨by decide, claim_C7_amended.2.1 4 6 (by decide) (by decide) (by decide)⟩⟩

/-- The counting drain at modulus `M` equals the counting drain with
unbounded tallies (modulus 0), reduced modulo `M` pointwise: the
counters never influence control flow. -/
theorem drainCount_mod (sys : ModuleSystem) (M : Nat) : ∀ (f : Nat) (q : List Signal)
    (st : SimState) (a b : Nat),
    drainCount sys M f q st (a % M) (b % M) =
      (drainCount sys 0 f q st a b).map (fun r => (r.1 % M, r.2.1 % M, r.2.2)) := by
  intro f
  induction f with
  | zero =>
    intro q st a b
    cases q with
    | nil => simp [drainCount]
    | cons s rest => simp [drainCount]
  | succ f ih =>
    intro q st a b
    cases q with
    | nil => simp [drainCount]
    | cons s rest =>
      cases hp : s.pulse with
      | low =>
        simp only [drainCount, hp, Nat.mod_add_mod, Nat.mod_zero]
        exact ih _ _ (a + 1) b
      | high =>
        simp only [drainCount, hp, Nat.mod_add_mod, Nat.mod_zero]
        exact ih _ _ a (b + 1)

/-- The press loop at modulus `M` equals the press loop with unbounded
tallies, reduced modulo `M` pointwise. -/
theorem pressLoop_mod (sys : ModuleSystem) (M fuel : Nat) : ∀ (n : Nat) (st : SimState)
    (a b : Nat),
    pressLoop sys M fuel n st (a % M) (b % M) =
      (pressLoop sys 0 fuel n st a b).map (fun r => (r.1 % M, r.2 % M)) := by
  intro n
  induction n with
  | zero => intro st a b; simp [pressLoop]
  | succ n ih =>
    intro st a b
    simp only [pressLoop]
    rw [drainCount_mod]
    cases hd : drainCount sys 0 fuel [Signal.initial] st a b with
    | none => simp
    | some r => simpa using ih r.2.2 r.1 r.2.1

/-- The source's `u32` counting mode is the true tally pair truncated
modulo `2^32`. -/
theorem press_mod_nat (sys : ModuleSystem) (times fuel : Nat) :
    press_button_times sys times fuel =
      (press_button_timesNat sys times fuel).map (fun r => (r.1 % 2 ^ 32, r.2 % 2 ^ 32)) := by
  rw [press_button_times, press_button_timesNat,
    show (0 : Nat) = 0 % 2 ^ 32 from rfl]
  exact pressLoop_mod sys (2 ^ 32) fuel times state0 0 0

/-- The spec-modelled `u64` counting mode is the true tally pair
truncated modulo `2^64`. -/
theorem press64_mod_nat (sys : ModuleSystem) (times fuel : Nat) :
    press_button_times64 sys times fuel =
      (press_button_timesNat sys times fuel).map (fun r => (r.1 % 2 ^ 64, r.2 % 2 ^ 64)) := by
  rw [press_button_times64, press_button_timesNat,
    show (0 : Nat) = 0 % 2 ^ 64 from rfl]
  exact pressLoop_mod sys (2 ^ 64) fuel times state0 0 0

/-- On the module-less system each press processes exactly one Low
signal: the unbounded tallies after `n` presses are `(a + n, b)`. -/
theorem pressLoop_empty : ∀ (n : Nat) (st : SimState) (a b : Nat),
    pressLoop emptySystem 0 1 n st a b = some (a + n, b) := by
  intro n
  induction n with
  | zero => intro st a b; simp [pressLoop]
  | succ n ih =>
    intro st a b
    have hget : ∀ d : ModuleName, getModule emptySystem.modules d = none := fun d => rfl
    simp only [pressLoop, drainCount, Signal.initial, processSignal, hget, Nat.mod_zero]
    rw [ih st (a + 1) b]
    have harith : a + 1 + n = a + (n + 1) := by omega
    rw [harith]

/-- Claim C1, counterexample: the source accumulates the tallies in
`u32`, not `u64` — after `2^32` presses of the module-less system the
true Low tally is `2^32`, the source's pair is `(0, 0)` (wrapped modulo
`2^32`), while the specified 64-bit accumulation returns `(2^32, 0)`. -/
theorem claim_C1_counterexample :
    press_button_times emptySystem (2 ^ 32) 1 = some (0, 0) ∧
    press_button_times64 emptySystem (2 ^ 32) 1 = some (2 ^ 32, 0) ∧
    (some ((0 : Nat), (0 : Nat)) : Option (Nat × Nat)) ≠ some (2 ^ 32, 0) := by
  have hnat : press_button_timesNat emptySystem (2 ^ 32) 1 = some (2 ^ 32, 0) := by
    rw [press_button_timesNat, pressLoop_empty]
    norm_num
  refine ⟨?_, ?_, by decide⟩
  · rw [press_mod_nat, hnat]
    simp
  · rw [press64_mod_nat, hnat]
    simp only [Option.map_some']
    rw [Nat.mod_eq_of_lt (by norm_num : (2 : Nat) ^ 32 < 2 ^ 64), Nat.zero_mod]

/-- Claim C1, amended: `press_button_times` accumulates the two pulse
tallies in unsigned 32-bit integers and returns the pair `(low, high)`
— each component is the true tally truncated modulo `2^32`. -/
theorem claim_C1_amended (sys : ModuleSystem) (times fuel l h : Nat)
    (hrun : press_button_times sys times fuel = some (l, h)) :
    ∃ L H : Nat, press_button_timesNat sys times fuel = some (L, H) ∧
      l = L % 2 ^ 32 ∧ h = H % 2 ^ 32 := by
  rw [press_mod_nat] at hrun
  cases hnat : press_button_timesNat sys times fuel with
  | none => rw [hnat] at hrun; cases hrun
  | some r =>
    obtain ⟨L, H⟩ := r
    rw [hnat] at hrun
    simp only [Option.map_some'] at hrun
    have hpair := Option.some.inj hrun
    exact ⟨L, H, rfl, (congrArg Prod.fst hpair).symm,
      (congrArg Prod.snd hpair).symm⟩

/-- Claim C1 amended, witness: three presses of the module-less system
give the pair `(3, 0)`, the true tallies modulo `2^32`. -/
theorem claim_C1_amended_witness :
    press_button_times emptySystem 3 1 = some (3, 0) ∧
    ∃ L H : Nat, press_button_timesNat emptySystem 3 1 = some (L, H) ∧
      3 = L % 2 ^ 32 ∧ 0 = H % 2 ^ 32 :=
  ⟨by decide, claim_C1_amended emptySystem 3 1 3 0 (by decide)⟩

/-- Processing one signal only ever appends to the back of the queue. -/
theorem processSignal_queue_append (sys : ModuleSystem) (s : Signal) (q : List Signal)
    (st : SimState) : ∃ e, (processSignal sys s q st).1 = q ++ e := by
  unfold processSignal
  repeat' split
  all_goals
    first
      | exact ⟨[], (List.append_nil q).symm⟩
      | exact ⟨_, rfl⟩

/-- FIFO prefix property of the drain: the signals already pending in
the queue are processed first, in their queue order, before anything
enqueued later. -/
theorem runQueue_fifo_order (sys : ModuleSystem) : ∀ (f : Nat) (q : List Signal)
    (st : SimState) (t : List Signal) (st' : SimState),
    runQueue sys f q st = some (t, st') → q <+: t := by
  intro f
  induction f with
  | zero =>
    intro q st t st' h
    cases q with
    | nil =>
      simp only [runQueue] at h
      obtain ⟨rfl, rfl⟩ : t = [] ∧ st' = st := by
        cases h
        exact ⟨rfl, rfl⟩
      exact List.nil_prefix
    | cons s rest => cases h
  | succ f ih =>
    intro q st t st' h
    cases q with
    | nil =>
      simp only [runQueue] at h
      obtain ⟨rfl, rfl⟩ : t = [] ∧ st' = st := by
        cases h
        exact ⟨rfl, rfl⟩
      exact List.nil_prefix
    | cons s rest =>
      simp only [runQueue] at h
      cases hrec : runQueue sys f (processSignal sys s rest st).1
          (processSignal sys s rest st).2 with
      | none => rw [hrec] at h; cases h
      | some r =>
        rw [hrec] at h
        obtain ⟨t', st''⟩ := r
        have ht : t = s :: t' := by
          cases h
          rfl
        subst ht
        obtain ⟨e, he⟩ := processSignal_queue_append sys s rest st
        have hp : rest ++ e <+: t' := by
          apply ih _ _ _ _
          rw [← he]
          exact hrec
        have hrest : rest <+: t' := (List.prefix_append rest e).trans hp
        obtain ⟨r2, hr2⟩ := hrest
        exact ⟨r2, by rw [List.cons_append, hr2]⟩

/-- The counting drain is the plain drain followed by the tally fold
over its trace. -/
theorem drainCount_runQueue (sys : ModuleSystem) (M : Nat) : ∀ (f : Nat)
    (q : List Signal) (st : SimState) (a b : Nat),
    drainCount sys M f q st a b =
      (runQueue sys f q st).map
        (fun r => ((countsFold M a b r.1).1, (countsFold M a b r.1).2, r.2)) := by
  intro f
  induction f with
  | zero =>
    intro q st a b
    cases q with
    | nil => simp [drainCount, runQueue, countsFold]
    | cons s rest => simp [drainCount, runQueue]
  | succ f ih =>
    intro q st a b
    cases q with
    | nil => simp [drainCount, runQueue, countsFold]
    | cons s rest =>
      cases hp : s.pulse with
      | low =>
        simp only [drainCount, runQueue, hp]
        rw [ih]
        cases hrec : runQueue sys f (processSignal sys s rest st).1
            (processSignal sys s rest st).2 with
        | none => simp
        | some r => simp [countsFold, hp]
      | high =>
        simp only [drainCount, runQueue, hp]
        rw [ih]
        cases hrec : runQueue sys f (processSignal sys s rest st).1
            (processSignal sys s rest st).2 with
        | none => simp
        | some r => simp [countsFold, hp]

/-- With modulus 0 the tally fold counts the Low and High signals. -/
theorem countsFold_zero : ∀ (t : List Signal) (a b : Nat),
    countsFold 0 a b t = (a + countLow t, b + countHigh t) := by
  intro t
  induction t with
  | nil => intro a b; simp [countsFold, countLow, countHigh]
  | cons s rest ih =>
    intro a b
    cases hp : s.pulse with
    | low =>
      simp only [countsFold, hp, Nat.mod_zero]
      rw [ih]
      have h1 : countLow (s :: rest) = countLow rest + 1 := by
        simp [countLow, List.filter_cons, hp]
      have h2 : countHigh (s :: rest) = countHigh rest := by
        simp [countHigh, List.filter_cons, hp]
      rw [h1, h2]
      congr 1
      omega
    | high =>
      simp only [countsFold, hp, Nat.mod_zero]
      rw [ih]
      have h1 : countLow (s :: rest) = countLow rest := by
        simp [countLow, List.filter_cons, hp]
      have h2 : countHigh (s :: rest) = countHigh rest + 1 := by
        simp [countHigh, List.filter_cons, hp]
      rw [h1, h2]
      congr 1
      omega

/-- The unbounded press loop decomposes into the sequence of complete
per-press traces: press `k + 1` begins only on the state left after
press `k`'s queue has fully drained, and the tallies are the Low and
High counts of the concatenated traces. -/
theorem pressLoop_traces (sys : ModuleSystem) (fuel : Nat) : ∀ (n : Nat) (st : SimState)
    (a b : Nat),
    pressLoop sys 0 fuel n st a b =
      (pressTraces sys fuel n st).map
        (fun r => (a + countLow r.1.flatten, b + countHigh r.1.flatten)) := by
  intro n
  induction n with
  | zero => intro st a b; simp [pressLoop, pressTraces, countLow, countHigh]
  | succ n ih =>
    intro st a b
    simp only [pressLoop, pressTraces]
    rw [drainCount_runQueue]
    cases hq : runQueue sys fuel [Signal.initial] st with
    | none => simp
    | some r =>
      obtain ⟨t, st'⟩ := r
      simp only [Option.map_some']
      rw [countsFold_zero, ih]
      cases hts : pressTraces sys fuel n st' with
      | none => simp
      | some r2 =>
        obtain ⟨ts, stF⟩ := r2
        simp only [Option.map_some']
        have hl : countLow (t ++ ts.flatten) = countLow t + countLow ts.flatten := by
          simp [countLow, List.filter_append]
        have hh : countHigh (t ++ ts.flatten) = countHigh t + countHigh ts.flatten := by
          simp [countHigh, List.filter_append]
        simp only [List.flatten_cons, hl, hh]
        congr 2 <;> omega

/-- Claim C5: signals are processed in FIFO order — within one press
the signals already pending are processed first, in queue order, before
anything enqueued later; and the tallies of a multi-press run are the
counts of a concatenation of complete per-press traces, each press
starting only from the state its predecessor's fully drained queue left
behind. -/
theorem claim_C5 (sys : ModuleSystem) :
    (∀ (f : Nat) (q : List Signal) (st : SimState) (t : List Signal) (st' : SimState),
      runQueue sys f q st = some (t, st') → q <+: t) ∧
    (∀ times fuel l h : Nat, press_button_times sys times fuel = some (l, h) →
      ∃ ts stF, pressTraces sys fuel times state0 = some (ts, stF) ∧
        l = countLow ts.flatten % 2 ^ 32 ∧ h = countHigh ts.flatten % 2 ^ 32) := by
  refine ⟨runQueue_fifo_order sys, ?_⟩
  intro times fuel l h hrun
  rw [press_mod_nat,
    show press_button_timesNat sys times fuel = pressLoop sys 0 fuel times state0 0 0
      from rfl,
    pressLoop_traces sys fuel times state0 0 0] at hrun
  cases hts : pressTraces sys fuel times state0 with
  | none => rw [hts] at hrun; cases hrun
  | some r =>
    obtain ⟨ts, stF⟩ := r
    rw [hts] at hrun
    simp only [Option.map_some'] at hrun
    have hpair := Option.some.inj hrun
    have h1 := congrArg Prod.fst hpair
    have h2 := congrArg Prod.snd hpair
    simp only [Nat.zero_add] at h1 h2
    exact ⟨ts, stF, rfl, h1.symm, h2.symm⟩

/-- Claim C5, witness: a concrete two-element queue on `sysTwo` is a
prefix of its own processing trace, and one press's tallies come from
one complete per-press trace. -/
theorem claim_C5_witness :
    (runQueue sysTwo 10 [Signal.initial, ⟨Pulse.high, mn 'z' 'z'⟩] state0 =
      some ([⟨Pulse.low, ModuleName.broadcaster⟩, ⟨Pulse.high, mn 'z' 'z'⟩,
             ⟨Pulse.low, mn 'm' 'm'⟩, ⟨Pulse.high, mn 'c' 'c'⟩,
             ⟨Pulse.low, mn 'r' 'x'⟩],
            ⟨[(mn 'm' 'm', true)],
             [(mn 'c' 'c', Pulse.low), (mn 'm' 'm', Pulse.high),
              (ModuleName.broadcaster, Pulse.low)]⟩) ∧
     [Signal.initial, ⟨Pulse.high, mn 'z' 'z'⟩] <+:
       [⟨Pulse.low, ModuleName.broadcaster⟩, ⟨Pulse.high, mn 'z' 'z'⟩,
        ⟨Pulse.low, mn 'm' 'm'⟩, ⟨Pulse.high, mn 'c' 'c'⟩,
        ⟨Pulse.low, mn 'r' 'x'⟩]) ∧
    press_button_times sysTwo 1 10 = some (3, 1) ∧
    ∃ ts stF, pressTraces sysTwo 10 1 state0 = some (ts, stF) ∧
      3 = countLow ts.flatten % 2 ^ 32 ∧ 1 = countHigh ts.flatten % 2 ^ 32 :=
  ⟨⟨by decide,
    (claim_C5 sysTwo).1 10 [Signal.initial, ⟨Pulse.high, mn 'z' 'z'⟩] state0
      [⟨Pulse.low, ModuleName.broadcaster⟩, ⟨Pulse.high, mn 'z' 'z'⟩,
       ⟨Pulse.low, mn 'm' 'm'⟩, ⟨Pulse.high, mn 'c' 'c'⟩, ⟨Pulse.low, mn 'r' 'x'⟩]
      ⟨[(mn 'm' 'm', true)],
       [(mn 'c' 'c', Pulse.low), (mn 'm' 'm', Pulse.high),
        (ModuleName.broadcaster, Pulse.low)]⟩ (by decide)⟩,
   by decide, (claim_C5 sysTwo).2 1 10 3 1 (by decide)⟩

/-- A Low signal at the head of a trace contributes its destination to
the Low-destination list. -/
theorem lowDests_cons_low (s : Signal) (t : List Signal) (hp : s.pulse = Pulse.low) :
    lowDests (s :: t) = s.destination :: lowDests t := by
  simp [lowDests, List.filter_cons, hp]

/-- A High signal at the head of a trace is not a Low destination. -/
theorem lowDests_cons_high (s : Signal) (t : List Signal) (hp : s.pulse = Pulse.high) :
    lowDests (s :: t) = lowDests t := by
  simp [lowDests, List.filter_cons, hp]

/-- The source's interleaved watch-mode drain agrees with draining the
queue completely and then scanning the trace's Low destinations with
the reference bookkeeping, whenever the full drain succeeds. -/
theorem watchDrain_runQueue (sys : ModuleSystem) : ∀ (f : Nat) (q : List Signal)
    (st : SimState) (tf : List ModuleName) (l p : Nat) (t : List Signal) (st' : SimState),
    runQueue sys f q st = some (t, st') →
    watchDrain sys f q tf l p st =
      some (match recordLows p (lowDests t) tf l with
            | (some v, _, _) => WatchOut.found v
            | (none, tf', l') => WatchOut.drained tf' l' st') := by
  intro f
  induction f with
  | zero =>
    intro q st tf l p t st' h
    cases q with
    | nil =>
      obtain ⟨rfl, rfl⟩ : t = [] ∧ st' = st := by
        cases h
        exact ⟨rfl, rfl⟩
      simp [watchDrain, lowDests, recordLows]
    | cons s rest => cases h
  | succ f ih =>
    intro q st tf l p t st' h
    cases q with
    | nil =>
      obtain ⟨rfl, rfl⟩ : t = [] ∧ st' = st := by
        cases h
        exact ⟨rfl, rfl⟩
      simp [watchDrain, lowDests, recordLows]
    | cons s rest =>
      simp only [runQueue] at h
      cases hrec : runQueue sys f (processSignal sys s rest st).1
          (processSignal sys s rest st).2 with
      | none => rw [hrec] at h; cases h
      | some r =>
        rw [hrec] at h
        obtain ⟨t', st''⟩ := r
        obtain ⟨rfl, rfl⟩ : t = s :: t' ∧ st' = st'' := by
          cases h
          exact ⟨rfl, rfl⟩
        by_cases hcond : s.pulse = Pulse.low ∧ s.destination ∈ tf
        · rw [lowDests_cons_low s t' hcond.1]
          simp only [watchDrain, if_pos hcond, recordLows, if_pos hcond.2]
          by_cases hempty : removeName tf s.destination = []
          · rw [if_pos hempty, if_pos hempty]
          · rw [if_neg hempty, if_neg hempty]
            exact ih _ _ _ _ _ _ _ hrec
        · simp only [watchDrain, if_neg hcond]
          cases hp : s.pulse with
          | low =>
            have hnm : s.destination ∉ tf := by
              intro hc
              exact hcond ⟨hp, hc⟩
            rw [lowDests_cons_low s t' hp]
            simp only [recordLows, if_neg hnm]
            exact ih _ _ _ _ _ _ _ hrec
          | high =>
            rw [lowDests_cons_high s t' hp]
            exact ih _ _ _ _ _ _ _ hrec

/-- The source's cycle-finder loop returns whatever the reference loop
returns, whenever the latter returns at all. -/
theorem findLoop_of_ref (sys : ModuleSystem) (fuel : Nat) : ∀ (pf p : Nat)
    (tf : List ModuleName) (l : Nat) (st : SimState) (v : Nat),
    findRefLoop sys fuel pf p tf l st = some v →
    findLcmLoop sys fuel pf p tf l st = some v := by
  intro pf
  induction pf with
  | zero => intro p tf l st v h; cases h
  | succ pf ih =>
    intro p tf l st v h
    rw [findRefLoop] at h
    split at h
    · cases h
    · rename_i t st' hq
      rw [findLcmLoop, watchDrain_runQueue sys fuel [Signal.initial] st tf l p t st' hq]
      split at h
      · rename_i v' tf0 l0 hrl
        simpa using h
      · rename_i tf' l' hrl
        exact ih (p + 1) tf' l' st' v h

/-- Claim C2, counterexample: on `broadcaster -> mm`, `%mm -> cc`,
`&cc -> rx` the source's finder resolves `mm` at press 1 — the press at
which a Low pulse is first DELIVERED TO the watched member `mm` — while
the claim's reading (first press at which `mm` is the SENDER of a Low
pulse sent to the conjunction `cc`) gives press 2: the flip-flop `mm`
first sends High. -/
theorem claim_C2_counterexample :
    find_lcm_of_signals_to_destinations sysTwo [mn 'm' 'm'] 5 20 = some 1 ∧
    spec_find_lcm sysTwo (mn 'c' 'c') [mn 'm' 'm'] 5 20 = some 2 ∧
    (1 : Nat) ≠ 2 :=
  ⟨by decide, by decide, by decide⟩

/-- Claim C2, amended: the CycleFinder records, for each member of the
watch set, the first press index at which a Low pulse is DELIVERED TO
that member (not sent by it), folds the press index into the LCM
accumulator at first recording, stops the moment every member has been
recorded, and returns the accumulated LCM — formalised as agreement
with the reference finder `findRef`, which per press drains the queue
completely and scans the trace's Low destinations in processing order. -/
theorem claim_C2_amended (sys : ModuleSystem) (W : List ModuleName) (pf df v : Nat)
    (h : findRef sys W pf df = some v) :
    find_lcm_of_signals_to_destinations sys W pf df = some v :=
  findLoop_of_ref sys df pf 1 W 1 state0 v h

/-- Claim C2 amended, witness: the reference finder and the source's
finder both resolve `sysTwo`'s watch set at press 1. -/
theorem claim_C2_amended_witness :
    findRef sysTwo [mn 'm' 'm'] 5 20 = some 1 ∧
    find_lcm_of_signals_to_destinations sysTwo [mn 'm' 'm'] 5 20 = some 1 :=
  ⟨by decide, claim_C2_amended sysTwo [mn 'm' 'm'] 5 20 1 (by decide)⟩

/-- Removing a name keeps only members of the original list. -/
theorem mem_of_mem_removeName : ∀ (tf : List ModuleName) (d m : ModuleName),
    m ∈ removeName tf d → m ∈ tf := by
  intro tf
  induction tf with
  | nil => intro d m h; cases h
  | cons x rest ih =>
    intro d m h
    rw [removeName] at h
    by_cases hx : x = d
    · rw [if_pos hx] at h
      exact List.mem_cons_of_mem x h
    · rw [if_neg hx] at h
      rcases List.mem_cons.mp h with h | h
      · exact h ▸ List.mem_cons_self x rest
      · exact List.mem_cons_of_mem x (ih d m h)

/-- Removing a name preserves freedom from duplicates. -/
theorem removeName_nodup : ∀ (tf : List ModuleName) (d : ModuleName),
    tf.Nodup → (removeName tf d).Nodup := by
  intro tf
  induction tf with
  | nil => intro d h; exact h
  | cons x rest ih =>
    intro d h
    rw [removeName]
    rcases List.nodup_cons.mp h with ⟨hx, hrest⟩
    by_cases hxd : x = d
    · rw [if_pos hxd]
      exact hrest
    · rw [if_neg hxd]
      refine List.nodup_cons.mpr ⟨fun hc => hx (mem_of_mem_removeName rest d x hc), ih d hrest⟩

/-- Membership after removing a name from a duplicate-free list. -/
theorem mem_removeName : ∀ (tf : List ModuleName) (d m : ModuleName), tf.Nodup →
    (m ∈ removeName tf d ↔ m ∈ tf ∧ m ≠ d) := by
  intro tf
  induction tf with
  | nil => intro d m _; simp [removeName]
  | cons x rest ih =>
    intro d m h
    rcases List.nodup_cons.mp h with ⟨hx, hrest⟩
    rw [removeName]
    by_cases hxd : x = d
    · subst hxd
      rw [if_pos rfl]
      constructor
      · intro hm
        exact ⟨List.mem_cons_of_mem x hm, fun he => hx (he ▸ hm)⟩
      · rintro ⟨hm, hne⟩
        rcases List.mem_cons.mp hm with h | h
        · exact absurd h hne
        · exact h
    · rw [if_neg hxd]
      constructor
      · intro hm
        rcases List.mem_cons.mp hm with h | h
        · exact ⟨h ▸ List.mem_cons_self x rest, h ▸ fun he => hxd he⟩
        · rcases (ih d m hrest).mp h with ⟨h1, h2⟩
          exact ⟨List.mem_cons_of_mem x h1, h2⟩
      · rintro ⟨hm, hne⟩
        rcases List.mem_cons.mp hm with h | h
        · exact h ▸ List.mem_cons_self x _
        · exact List.mem_cons_of_mem x ((ih d m hrest).mpr ⟨h, hne⟩)

/-- When the reference bookkeeping scans a whole list without the watch
list emptying, the resulting watch list is the original minus the
scanned names, still duplicate-free and still nonempty. -/
theorem recordLows_none (p : Nat) : ∀ (ds : List ModuleName) (tf : List ModuleName)
    (l : Nat) (tf' : List ModuleName) (l' : Nat), tf.Nodup →
    recordLows p ds tf l = (none, tf', l') →
    tf'.Nodup ∧ (tf ≠ [] → tf' ≠ []) ∧ (∀ m, m ∈ tf' ↔ m ∈ tf ∧ m ∉ ds) := by
  intro ds
  induction ds with
  | nil =>
    intro tf l tf' l' hnd h
    obtain ⟨rfl, rfl⟩ : tf' = tf ∧ l' = l := by
      cases h
      exact ⟨rfl, rfl⟩
    exact ⟨hnd, fun h => h, fun m => by simp⟩
  | cons d ds ih =>
    intro tf l tf' l' hnd h
    rw [recordLows] at h
    by_cases hd : d ∈ tf
    · rw [if_pos hd] at h
      by_cases hemp : removeName tf d = []
      · simp [hemp] at h
      · simp only [if_neg hemp] at h
        obtain ⟨hnd', hne', hmem'⟩ :=
          ih (removeName tf d) (lcm64 l p) tf' l' (removeName_nodup tf d hnd) h
        refine ⟨hnd', fun _ => hne' hemp, fun m => ?_⟩
        rw [hmem' m, mem_removeName tf d m hnd]
        constructor
        · rintro ⟨⟨h1, h2⟩, h3⟩
          exact ⟨h1, by simp [h2, h3]⟩
        · rintro ⟨h1, h2⟩
          simp only [List.mem_cons, not_or] at h2
          exact ⟨⟨h1, h2.1⟩, h2.2⟩
    · rw [if_neg hd] at h
      obtain ⟨hnd', hne', hmem'⟩ := ih tf l tf' l' hnd h
      refine ⟨hnd', hne', fun m => ?_⟩
      rw [hmem' m]
      constructor
      · rintro ⟨h1, h2⟩
        refine ⟨h1, ?_⟩
        simp only [List.mem_cons, not_or]
        exact ⟨fun he => hd (he ▸ h1), h2⟩
      · rintro ⟨h1, h2⟩
        simp only [List.mem_cons, not_or] at h2
        exact ⟨h1, h2.2⟩

/-- A Low signal in a trace puts its destination among the trace's Low
destinations. -/
theorem mem_lowDests (m : ModuleName) (t : List Signal)
    (h : Signal.mk Pulse.low m ∈ t) : m ∈ lowDests t := by
  simp only [lowDests, List.mem_map]
  exact ⟨Signal.mk Pulse.low m, List.mem_filter.mpr ⟨h, rfl⟩, rfl⟩

/-- The reference finder terminates with a value whenever every watched
member has a Low pulse delivered to it somewhere in the next `n`
presses. -/
theorem refLoop_resolves (sys : ModuleSystem) (df : Nat) : ∀ (n : Nat) (st : SimState)
    (ts : List (List Signal)) (stF : SimState) (tf : List ModuleName) (l p : Nat),
    pressTraces sys df n st = some (ts, stF) → tf.Nodup → tf ≠ [] →
    (∀ m ∈ tf, ∃ t ∈ ts, Signal.mk Pulse.low m ∈ t) →
    ∃ v, findRefLoop sys df n p tf l st = some v := by
  intro n
  induction n with
  | zero =>
    intro st ts stF tf l p hts hnd hne hall
    obtain ⟨rfl, rfl⟩ : ts = [] ∧ stF = st := by
      cases hts
      exact ⟨rfl, rfl⟩
    obtain ⟨m, hm⟩ := List.exists_mem_of_ne_nil tf hne
    obtain ⟨t, ht, _⟩ := hall m hm
    cases ht
  | succ n ih =>
    intro st ts stF tf l p hts hnd hne hall
    rw [pressTraces] at hts
    split at hts
    · cases hts
    · rename_i t st' hq
      split at hts
      · cases hts
      · rename_i ts0 stF0 hrest
        injection hts with hpair
        injection hpair with h1 h2
        subst h1
        subst h2
        rw [findRefLoop, hq]
        show ∃ v, (match recordLows p (lowDests t) tf l with
            | (some v, _, _) => some v
            | (none, tf', l') => findRefLoop sys df n (p + 1) tf' l' st') = some v
        cases hrl : recordLows p (lowDests t) tf l with
        | mk found rest2 =>
          obtain ⟨tf', l'⟩ := rest2
          cases found with
          | some v => exact ⟨v, rfl⟩
          | none =>
            obtain ⟨hnd', hne', hmem'⟩ := recordLows_none p (lowDests t) tf l tf' l' hnd hrl
            refine ih st' ts0 stF0 tf' l' (p + 1) hrest hnd' (hne' hne) ?_
            intro m hm
            rcases (hmem' m).mp hm with ⟨hmtf, hmnot⟩
            obtain ⟨t0, ht0, hsig⟩ := hall m hmtf
            rcases List.mem_cons.mp ht0 with h | h
            · exact absurd (mem_lowDests m t (h ▸ hsig)) hmnot
            · exact ⟨t0, h, hsig⟩

/-- Claim C10, counterexample: on the module-less system with watch set
containing only `aa`, no Low pulse is ever delivered to `aa`, and the
watch-mode press loop never returns, whatever bounds it is given — the
Rust `for presses in 1..` loop would run forever. -/
theorem claim_C10_counterexample :
    find_lcm_of_signals_to_destinations emptySystem [mn 'a' 'a'] 100 100 = none ∧
    (∀ pf df : Nat,
      find_lcm_of_signals_to_destinations emptySystem [mn 'a' 'a'] pf df = none) := by
  have key : ∀ df pf p l st,
      findLcmLoop emptySystem df pf p [mn 'a' 'a'] l st = none := by
    intro df pf
    induction pf with
    | zero => intro p l st; rfl
    | succ pf ih =>
      intro p l st
      cases df with
      | zero => simp [findLcmLoop, watchDrain]
      | succ d =>
        have hw : watchDrain emptySystem (d + 1) [Signal.initial] [mn 'a' 'a'] l p st =
            some (WatchOut.drained [mn 'a' 'a'] l st) := by
          simp [watchDrain, Signal.initial, processSignal, getModule, emptySystem, mn]
        simp only [findLcmLoop, hw]
        exact ih (p + 1) l st
  exact ⟨key 100 100 1 1 state0, fun pf df => key df pf 1 1 state0⟩

/-- Claim C10, amended: the watch-mode computation terminates provided
every member of the (duplicate-free, nonempty) watch set has a Low
pulse delivered to it within some bounded number of presses; the press
loop then stops with a value once every member has been resolved. -/
theorem claim_C10_amended (sys : ModuleSystem) (W : List ModuleName) (N df : Nat)
    (hnodup : W.Nodup) (hne : W ≠ [])
    (h : ∃ ts stF, pressTraces sys df N state0 = some (ts, stF) ∧
      ∀ m ∈ W, ∃ t ∈ ts, Signal.mk Pulse.low m ∈ t) :
    ∃ v, find_lcm_of_signals_to_destinations sys W N df = some v := by
  obtain ⟨ts, stF, hts, hall⟩ := h
  obtain ⟨v, hv⟩ := refLoop_resolves sys df N state0 ts stF W 1 1 hts hnodup hne hall
  exact ⟨v, findLoop_of_ref sys df N 1 W 1 state0 v hv⟩

/-- Claim C10 amended, witness: on `sysTwo` the watched member `mm`
receives a Low pulse during press 1, so the finder terminates. -/
theorem claim_C10_amended_witness :
    ([mn 'm' 'm'] : List ModuleName).Nodup ∧
    ∃ v, find_lcm_of_signals_to_destinations sysTwo [mn 'm' 'm'] 1 10 = some v :=
  ⟨by decide,
   claim_C10_amended sysTwo [mn 'm' 'm'] 1 10 (by decide) (by decide)
     ⟨[[⟨Pulse.low, ModuleName.broadcaster⟩, ⟨Pulse.low, mn 'm' 'm'⟩,
        ⟨Pulse.high, mn 'c' 'c'⟩, ⟨Pulse.low, mn 'r' 'x'⟩]],
      ⟨[(mn 'm' 'm', true)],
       [(mn 'c' 'c', Pulse.low), (mn 'm' 'm', Pulse.high),
        (ModuleName.broadcaster, Pulse.low)]⟩,
      by decide, by decide⟩⟩

/-- A module rebuilt from its own fields is itself. -/
theorem module_eta_conj (m : Module) (tr : List ModuleName)
    (h : m.module_type = ModuleType.conjunction tr) :
    (⟨m.name, ModuleType.conjunction tr, m.destinations⟩ : Module) = m := by
  cases m with
  | mk nm mt ds =>
    simp only at h
    rw [h]

/-- The second construction pass never changes any module's name or
destination set. -/
theorem updateConjTracker_skeleton : ∀ (ms : List Module) (dest src : ModuleName),
    (updateConjTracker ms dest src).map (fun m => (m.name, m.destinations)) =
      ms.map (fun m => (m.name, m.destinations)) := by
  intro ms
  induction ms with
  | nil => intro dest src; rfl
  | cons m rest ih =>
    intro dest src
    rw [updateConjTracker]
    by_cases hname : m.name = dest
    · rw [if_pos hname]
      cases htype : m.module_type <;> simp
    · rw [if_neg hname]
      simp [ih dest src]

/-- The whole second pass never changes any module's name or
destination set. -/
theorem backPopulate_skeleton : ∀ (conns : List (ModuleName × ModuleName))
    (ms : List Module),
    (backPopulate ms conns).map (fun m => (m.name, m.destinations)) =
      ms.map (fun m => (m.name, m.destinations)) := by
  intro conns
  induction conns with
  | nil => intro ms; rfl
  | cons c rest ih =>
    intro ms
    rw [show backPopulate ms (c :: rest) =
      backPopulate (updateConjTracker ms c.2 c.1) rest from rfl]
    rw [ih, updateConjTracker_skeleton]

/-- Feeding relations can be read off either side of the second pass. -/
theorem backPopulate_feeds (ms : List Module) (conns : List (ModuleName × ModuleName))
    (x n : ModuleName) :
    (∃ m2 ∈ backPopulate ms conns, m2.name = x ∧ n ∈ m2.destinations) ↔
    (∃ m2 ∈ ms, m2.name = x ∧ n ∈ m2.destinations) := by
  have hsk := backPopulate_skeleton conns ms
  constructor
  · rintro ⟨m2, hm2, hx, hn⟩
    have hmem : (m2.name, m2.destinations) ∈
        (backPopulate ms conns).map (fun m => (m.name, m.destinations)) :=
      List.mem_map_of_mem _ hm2
    rw [hsk] at hmem
    obtain ⟨m3, hm3, heq⟩ := List.mem_map.mp hmem
    have h1 : m3.name = m2.name := congrArg Prod.fst heq
    have h2 : m3.destinations = m2.destinations := congrArg Prod.snd heq
    exact ⟨m3, hm3, h1.trans hx, h2 ▸ hn⟩
  · rintro ⟨m2, hm2, hx, hn⟩
    have hmem : (m2.name, m2.destinations) ∈
        ms.map (fun m => (m.name, m.destinations)) :=
      List.mem_map_of_mem _ hm2
    rw [← hsk] at hmem
    obtain ⟨m3, hm3, heq⟩ := List.mem_map.mp hmem
    have h1 : m3.name = m2.name := congrArg Prod.fst heq
    have h2 : m3.destinations = m2.destinations := congrArg Prod.snd heq
    exact ⟨m3, hm3, h1.trans hx, h2 ▸ hn⟩

/-- A single tracker update seen through the name lookup. -/
theorem getModule_updateConjTracker : ∀ (ms : List Module) (dest src n : ModuleName),
    getModule (updateConjTracker ms dest src) n =
      if n = dest then
        (getModule ms n).map (fun m =>
          match m.module_type with
          | ModuleType.conjunction tr =>
            ⟨m.name, ModuleType.conjunction (insertUnique tr src), m.destinations⟩
          | _ => m)
      else getModule ms n := by
  intro ms
  induction ms with
  | nil =>
    intro dest src n
    by_cases h : n = dest <;> simp [updateConjTracker, getModule, h]
  | cons m rest ih =>
    intro dest src n
    rw [updateConjTracker]
    by_cases hmd : m.name = dest
    · rw [if_pos hmd]
      by_cases hnd : n = dest
      · rw [if_pos hnd]
        cases htype : m.module_type with
        | broadcaster =>
          simp [getModule, htype, hmd, hnd]
        | flipFlop =>
          simp [getModule, htype, hmd, hnd]
        | conjunction tr =>
          simp [getModule, htype, hmd, hnd]
      · rw [if_neg hnd]
        have hmn : ¬ m.name = n := fun h => hnd (h ▸ hmd ▸ rfl)
        cases htype : m.module_type with
        | broadcaster => simp [getModule, htype, hmn]
        | flipFlop => simp [getModule, htype, hmn]
        | conjunction tr => simp [getModule, htype, hmn]
    · rw [if_neg hmd]
      by_cases hmn : m.name = n
      · have hnd : ¬ n = dest := fun h => hmd (hmn.trans h)
        rw [if_neg hnd]
        simp [getModule, hmn]
      · rw [getModule, if_neg hmn, ih dest src n]
        by_cases hnd : n = dest
        · rw [if_pos hnd, if_pos hnd, getModule, if_neg hmn]
        · rw [if_neg hnd, if_neg hnd, getModule, if_neg hmn]

/-- The whole second pass seen through the name lookup: the tracker of
the conjunction named `n` accumulates the sources of every edge into
`n`, in edge order. -/
theorem getModule_backPopulate : ∀ (conns : List (ModuleName × ModuleName))
    (ms : List Module) (n : ModuleName),
    getModule (backPopulate ms conns) n =
      (getModule ms n).map (fun m =>
        match m.module_type with
        | ModuleType.conjunction tr =>
          ⟨m.name, ModuleType.conjunction (List.foldl insertUnique tr (srcsFor n conns)),
           m.destinations⟩
        | _ => m) := by
  intro conns
  induction conns with
  | nil =>
    intro ms n
    rw [show backPopulate ms [] = ms from rfl]
    cases hget : getModule ms n with
    | none => rfl
    | some m =>
      simp only [Option.map_some']
      cases htype : m.module_type with
      | broadcaster => rfl
      | flipFlop => rfl
      | conjunction tr =>
        show some m = some ⟨m.name,
          ModuleType.conjunction (List.foldl insertUnique tr (srcsFor n [])),
          m.destinations⟩
        rw [show List.foldl insertUnique tr (srcsFor n []) = tr from rfl,
          module_eta_conj m tr htype]
  | cons c rest ih =>
    intro ms n
    rw [show backPopulate ms (c :: rest) =
      backPopulate (updateConjTracker ms c.2 c.1) rest from rfl]
    rw [ih, getModule_updateConjTracker]
    by_cases hnc : n = c.2
    · rw [if_pos hnc]
      have hsrcs : srcsFor n (c :: rest) = c.1 :: srcsFor n rest := by
        simp [srcsFor, List.filter_cons, hnc]
      rw [hsrcs]
      cases hget : getModule ms n with
      | none => rfl
      | some m =>
        simp only [Option.map_some']
        cases htype : m.module_type with
        | broadcaster => simp [htype]
        | flipFlop => simp [htype]
        | conjunction tr => simp [htype]
    · rw [if_neg hnc]
      have hsrcs : srcsFor n (c :: rest) = srcsFor n rest := by
        have : ¬ c.2 = n := fun h => hnc (h ▸ rfl)
        simp [srcsFor, List.filter_cons, this]
      rw [hsrcs]

/-- Membership in a deduplicating insert. -/
theorem mem_insertUnique (tr : List ModuleName) (x d : ModuleName) :
    x ∈ insertUnique tr d ↔ x ∈ tr ∨ x = d := by
  rw [insertUnique]
  by_cases hd : d ∈ tr
  · rw [if_pos hd]
    constructor
    · exact Or.inl
    · rintro (h | rfl)
      · exact h
      · exact hd
  · rw [if_neg hd]
    simp

/-- Membership in a fold of deduplicating inserts. -/
theorem mem_foldl_insertUnique : ∀ (l tr : List ModuleName) (x : ModuleName),
    x ∈ List.foldl insertUnique tr l ↔ x ∈ tr ∨ x ∈ l := by
  intro l
  induction l with
  | nil => intro tr x; simp
  | cons d rest ih =>
    intro tr x
    rw [List.foldl_cons, ih, mem_insertUnique]
    simp [or_assoc]

/-- Membership in the sources pointing at `n`. -/
theorem mem_srcsFor (x n : ModuleName) (conns : List (ModuleName × ModuleName)) :
    x ∈ srcsFor n conns ↔ (x, n) ∈ conns := by
  simp only [srcsFor, List.mem_map, List.mem_filter, decide_eq_true_eq]
  constructor
  · rintro ⟨c, ⟨hc, h2⟩, h1⟩
    have : c = (x, n) := by
      cases c
      simp only at h1 h2
      rw [h1, h2]
    exact this ▸ hc
  · intro h
    exact ⟨(x, n), ⟨h, rfl⟩, rfl⟩

/-- Edges of the connection list are exactly the feeding relations. -/
theorem mem_connectionsOf (x n : ModuleName) (ms : List Module) :
    (x, n) ∈ connectionsOf ms ↔ ∃ m2 ∈ ms, m2.name = x ∧ n ∈ m2.destinations := by
  simp only [connectionsOf, List.mem_flatMap, List.mem_map]
  constructor
  · rintro ⟨m2, hm2, d, hd, heq⟩
    have h1 : m2.name = x := congrArg Prod.fst heq
    have h2 : d = n := congrArg Prod.snd heq
    exact ⟨m2, hm2, h1, h2 ▸ hd⟩
  · rintro ⟨m2, hm2, h1, h2⟩
    exact ⟨m2, hm2, n, h2, by rw [h1]⟩

/-- A successful name lookup finds a member of the list carrying that
name. -/
theorem getModule_mem : ∀ (ms : List Module) (n : ModuleName) (m : Module),
    getModule ms n = some m → m ∈ ms ∧ m.name = n := by
  intro ms
  induction ms with
  | nil => intro n m h; cases h
  | cons m0 rest ih =>
    intro n m h
    rw [getModule] at h
    by_cases hn : m0.name = n
    · rw [if_pos hn] at h
      cases h
      exact ⟨List.mem_cons_self _ _, hn⟩
    · rw [if_neg hn] at h
      obtain ⟨h1, h2⟩ := ih n m h
      exact ⟨List.mem_cons_of_mem m0 h1, h2⟩

/-- Members of the module map after an insert. -/
theorem mem_insertModule : ∀ (ms : List Module) (mnew m : Module),
    m ∈ insertModule ms mnew → m = mnew ∨ m ∈ ms := by
  intro ms
  induction ms with
  | nil =>
    intro mnew m h
    rcases List.mem_cons.mp h with h | h
    · exact Or.inl h
    · cases h
  | cons m0 rest ih =>
    intro mnew m h
    rw [insertModule] at h
    by_cases hname : m0.name = mnew.name
    · rw [if_pos hname] at h
      rcases List.mem_cons.mp h with h | h
      · exact Or.inl h
      · exact Or.inr (List.mem_cons_of_mem m0 h)
    · rw [if_neg hname] at h
      rcases List.mem_cons.mp h with h | h
      · exact Or.inr (h ▸ List.mem_cons_self m0 rest)
      · rcases ih mnew m h with h | h
        · exact Or.inl h
        · exact Or.inr (List.mem_cons_of_mem m0 h)

/-- A parsed module's conjunction tracker starts empty
(`ModuleType::new_conjunction`). -/
theorem moduleFromStr_conj_empty (line : List Char) (m : Module)
    (h : Module.fromStr line = Except.ok m) :
    ∀ tr, m.module_type = ModuleType.conjunction tr → tr = [] := by
  intro tr htype
  rw [Module.fromStr] at h
  split at h
  · cases h
  · split at h
    · cases h
    · rename_i name mt hmt
      split at h
      · cases h
      · rename_i dests hdests
        cases h
        simp only at htype
        subst htype
        rw [parseDetails] at hmt
        split at hmt
        · cases hmt
        · split at hmt
          · split at hmt
            · cases hmt
            · cases hmt
          · split at hmt
            · split at hmt
              · cases hmt
              · cases hmt
                rfl
            · cases hmt

/-- Every conjunction tracker in the parsed module map is empty. -/
theorem parseModules_conj_empty : ∀ (ls : List (List Char)) (acc ms : List Module),
    (∀ m ∈ acc, ∀ tr, m.module_type = ModuleType.conjunction tr → tr = []) →
    parseModules ls acc = Except.ok ms →
    ∀ m ∈ ms, ∀ tr, m.module_type = ModuleType.conjunction tr → tr = [] := by
  intro ls
  induction ls with
  | nil =>
    intro acc ms hacc h
    obtain rfl : acc = ms := by
      cases h
      rfl
    exact hacc
  | cons line rest ih =>
    intro acc ms hacc h
    rw [parseModules] at h
    split at h
    · cases h
    · rename_i mnew hnew
      refine ih (insertModule acc mnew) ms ?_ h
      intro m hm tr htype
      rcases mem_insertModule acc mnew m hm with hmn | hmn
      · exact moduleFromStr_conj_empty line mnew hnew tr (hmn ▸ htype)
      · exact hacc m hmn tr htype

/-- Claim C6: after the two-pass construction, the recorded input set of
every Conjunction module equals exactly the set of names of modules
whose destination set contains the conjunction's name.  Simulation
cannot change it afterwards: the module map is not part of the mutable
simulation state (`SimState`), mirroring the source's immutable borrow
of `self`. -/
theorem claim_C6 (input : String) (sys : ModuleSystem)
    (hparse : ModuleSystem.fromStr input = Except.ok sys)
    (n : ModuleName) (m : Module) (inputs : List ModuleName)
    (hget : getModule sys.modules n = some m)
    (htype : m.module_type = ModuleType.conjunction inputs) :
    ∀ x, x ∈ inputs ↔ ∃ m2 ∈ sys.modules, m2.name = x ∧ n ∈ m2.destinations := by
  rw [ModuleSystem.fromStr] at hparse
  split at hparse
  · cases hparse
  · rename_i ms hms
    cases hparse
    rw [show (⟨backPopulate ms (connectionsOf ms)⟩ : ModuleSystem).modules =
      backPopulate ms (connectionsOf ms) from rfl] at hget
    rw [getModule_backPopulate] at hget
    cases hget0 : getModule ms n with
    | none => rw [hget0] at hget; cases hget
    | some m0 =>
      rw [hget0] at hget
      simp only [Option.map_some'] at hget
      have hm0 := getModule_mem ms n m0 hget0
      cases htype0 : m0.module_type with
      | broadcaster =>
        rw [htype0] at hget
        have hmval : m0 = m := Option.some.inj hget
        rw [← hmval, htype0] at htype
        cases htype
      | flipFlop =>
        rw [htype0] at hget
        have hmval : m0 = m := Option.some.inj hget
        rw [← hmval, htype0] at htype
        cases htype
      | conjunction tr0 =>
        have htr0 : tr0 = [] :=
          parseModules_conj_empty (linesOf input.toList) [] ms
            (by intro m hm tr ht; cases hm) hms m0 hm0.1 tr0 htype0
        rw [htype0] at hget
        have hmval : (⟨m0.name,
            ModuleType.conjunction
              (List.foldl insertUnique tr0 (srcsFor n (connectionsOf ms))),
            m0.destinations⟩ : Module) = m := Option.some.inj hget
        have hmt := congrArg Module.module_type hmval
        rw [htype] at hmt
        simp only at hmt
        have hinputs : inputs =
            List.foldl insertUnique tr0 (srcsFor n (connectionsOf ms)) := by
          injection hmt with h
          exact h.symm
        intro x
        rw [hinputs, htr0, mem_foldl_insertUnique]
        simp only [List.not_mem_nil, false_or]
        rw [mem_srcsFor, mem_connectionsOf]
        exact (backPopulate_feeds ms (connectionsOf ms) x n).symm

/-- Claim C6, witness: on the parsed three-module system the
conjunction `cc` records exactly `mm`, the one module that feeds it. -/
theorem claim_C6_witness :
    ModuleSystem.fromStr ("broadcaster -> mm\n%mm -> cc\n&cc -> rx") =
      Except.ok sysTwo ∧
    getModule sysTwo.modules (mn 'c' 'c') =
      some ⟨mn 'c' 'c', ModuleType.conjunction [mn 'm' 'm'], [mn 'r' 'x']⟩ ∧
    (mn 'm' 'm' ∈ ([mn 'm' 'm'] : List ModuleName) ↔
      ∃ m2 ∈ sysTwo.modules, m2.name = mn 'm' 'm' ∧ mn 'c' 'c' ∈ m2.destinations) :=
  ⟨by decide, by decide,
   claim_C6 ("broadcaster -> mm\n%mm -> cc\n&cc -> rx") sysTwo (by decide)
     (mn 'c' 'c') ⟨mn 'c' 'c', ModuleType.conjunction [mn 'm' 'm'], [mn 'r' 'x']⟩
     [mn 'm' 'm'] (by decide) rfl (mn 'm' 'm')⟩

end Day20
